import Mathlib

set_option maxHeartbeats 1000000

namespace BusTub

/-!
Shallow embedding of the buffer-pool core of the repository:
the LRU-K replacer (src/include/buffer/lru_k_replacer.h,
src/buffer/lru_k_replacer.cpp), the buffer pool manager
(src/buffer/buffer_pool_manager.cpp) and the disk scheduler
(src/storage/disk/disk_scheduler.cpp).  Machine integers (size_t,
int) are modelled as Nat and Int; the C++ wrap-around is irrelevant at
all points where the code performs arithmetic (decrements are guarded,
counters only grow), which the invariants below make precise.
Exceptions are modelled with Except, and the twin promise/future
completion of a disk request is modelled by appending the completed
request to an I/O trace at the point where the code blocks on the
future.
-/

/-- Constant TIMESTAMP_NEG_INF from lru_k_replacer.h: the timestamp value 0
denotes "no k-th previous access" (negative infinity). -/
def TIMESTAMP_NEG_INF : Nat := 0

/-- Structure LRUKNode from lru_k_replacer.h.  Field history models the
std::queue of the last at most k access timestamps, least recent at the
head of the list; push appends at the back, pop removes the head. -/
structure LRUKNode where
  history : List Nat
  timestamp_added : Nat
  is_evictable : Bool := false
  present_in_pq : Bool := true
deriving DecidableEq

/-- Constructor LRUKNode(timestamp_added): history starts as the singleton
queue holding the creation timestamp. -/
def LRUKNode.create (t : Nat) : LRUKNode := { history := [t], timestamp_added := t }

/-- Structure PQNode from lru_k_replacer.h: a heap entry snapshotting a
frame's k-th-last and earliest timestamps at push time. -/
structure PQNode where
  frame_id : Nat
  kth_last_timestamp : Nat
  earliest_timestamp : Nat
deriving DecidableEq

/-- Constructor PQNode(frame_id, k, lruk_node): the k-th-last timestamp is
the history front when the history holds exactly k timestamps and
TIMESTAMP_NEG_INF otherwise; the earliest timestamp is the history front. -/
def PQNode.snap (f k : Nat) (n : LRUKNode) : PQNode :=
  { frame_id := f
    kth_last_timestamp := if n.history.length = k then n.history.headD 0 else TIMESTAMP_NEG_INF
    earliest_timestamp := n.history.headD 0 }

/-- Ordering of heap entries.  PQNode::operator< is inverted
(std::tie(kth, earliest) > std::tie(other.kth, other.earliest)), so the
std::priority_queue (a max-heap) pops the entry that is minimal in the
lexicographic order on (kth_last_timestamp, earliest_timestamp);
keyLE is that order. -/
def PQNode.keyLE (a b : PQNode) : Prop :=
  a.kth_last_timestamp < b.kth_last_timestamp ∨
    (a.kth_last_timestamp = b.kth_last_timestamp ∧
      a.earliest_timestamp ≤ b.earliest_timestamp)

instance (a b : PQNode) : Decidable (a.keyLE b) := by
  unfold PQNode.keyLE; exact inferInstance

theorem PQNode.keyLE_refl (a : PQNode) : a.keyLE a := by
  unfold PQNode.keyLE; omega

theorem PQNode.keyLE_trans {a b c : PQNode} (h1 : a.keyLE b) (h2 : b.keyLE c) :
    a.keyLE c := by
  unfold PQNode.keyLE at *; omega

theorem PQNode.keyLE_total (a b : PQNode) : a.keyLE b ∨ b.keyLE a := by
  unfold PQNode.keyLE; omega

/-- Model of popping the top of the std::priority_queue: remove one
occurrence of a keyLE-minimal entry.  Among entries with equal
(kth_last, earliest) keys the C++ heap's choice is unspecified, but the
reachability invariants below show equal-key entries always carry the same
frame id, so the choice is immaterial. -/
def popMin : List PQNode → Option (PQNode × List PQNode)
  | [] => none
  | x :: xs =>
    match popMin xs with
    | none => some (x, [])
    | some (m, rest) => if x.keyLE m then some (x, xs) else some (m, x :: rest)

theorem popMin_eq_none {l : List PQNode} : popMin l = none ↔ l = [] := by
  cases l with
  | nil => simp [popMin]
  | cons x xs =>
    simp only [popMin]
    cases h : popMin xs with
    | none => simp
    | some p => obtain ⟨m, rest⟩ := p; by_cases hc : x.keyLE m <;> simp [hc]

theorem popMin_perm {l : List PQNode} {m : PQNode} {rest : List PQNode}
    (h : popMin l = some (m, rest)) : l.Perm (m :: rest) := by
  induction l generalizing m rest with
  | nil => simp [popMin] at h
  | cons x xs ih =>
    simp only [popMin] at h
    cases h' : popMin xs with
    | none =>
      rw [h'] at h
      simp only [Option.some.injEq, Prod.mk.injEq] at h
      obtain ⟨rfl, rfl⟩ := h
      have hxs : xs = [] := popMin_eq_none.1 h'
      subst hxs
      exact List.Perm.refl _
    | some p =>
      obtain ⟨m', rest'⟩ := p
      rw [h'] at h
      by_cases hc : x.keyLE m'
      · simp only [hc, if_true, Option.some.injEq, Prod.mk.injEq] at h
        obtain ⟨rfl, rfl⟩ := h
        exact List.Perm.refl _
      · simp only [hc, if_false, Option.some.injEq, Prod.mk.injEq] at h
        obtain ⟨rfl, rfl⟩ := h
        exact ((ih h').cons x).trans (List.Perm.swap m' x rest')

theorem popMin_min {l : List PQNode} {m : PQNode} {rest : List PQNode}
    (h : popMin l = some (m, rest)) : ∀ x ∈ l, m.keyLE x := by
  induction l generalizing m rest with
  | nil => simp [popMin] at h
  | cons a as ih =>
    simp only [popMin] at h
    cases h' : popMin as with
    | none =>
      rw [h'] at h
      simp only [Option.some.injEq, Prod.mk.injEq] at h
      obtain ⟨rfl, rfl⟩ := h
      have has : as = [] := popMin_eq_none.1 h'
      subst has
      intro x hx
      simp only [List.mem_singleton] at hx
      subst hx
      exact PQNode.keyLE_refl _
    | some p =>
      obtain ⟨m', rest'⟩ := p
      rw [h'] at h
      by_cases hc : a.keyLE m'
      · simp only [hc, if_true, Option.some.injEq, Prod.mk.injEq] at h
        obtain ⟨rfl, rfl⟩ := h
        intro x hx
        rcases List.mem_cons.1 hx with rfl | hx
        · exact PQNode.keyLE_refl _
        · exact PQNode.keyLE_trans hc (ih h' x hx)
      · simp only [hc, if_false, Option.some.injEq, Prod.mk.injEq] at h
        obtain ⟨rfl, rfl⟩ := h
        intro x hx
        rcases List.mem_cons.1 hx with rfl | hx
        · rcases PQNode.keyLE_total m' x with hk | hk
          · exact hk
          · exact absurd hk hc
        · exact ih h' x hx

/-- Access to the node_store_ vector: node_store_[f], with out-of-range
reads yielding the empty optional (the code always guards the index). -/
def getN (store : List (Option LRUKNode)) (f : Nat) : Option LRUKNode :=
  store.getD f none

theorem getN_nil (f : Nat) : getN [] f = none := by cases f <;> rfl

theorem getN_cons_zero (x : Option LRUKNode) (xs : List (Option LRUKNode)) :
    getN (x :: xs) 0 = x := rfl

theorem getN_cons_succ (x : Option LRUKNode) (xs : List (Option LRUKNode)) (f : Nat) :
    getN (x :: xs) (f + 1) = getN xs f := rfl

theorem getN_some_lt {store : List (Option LRUKNode)} {f : Nat} {n : LRUKNode}
    (h : getN store f = some n) : f < store.length := by
  induction store generalizing f with
  | nil => rw [getN_nil] at h; cases h
  | cons x xs ih =>
    cases f with
    | zero => simp
    | succ f =>
      rw [getN_cons_succ] at h
      have := ih h
      simp only [List.length_cons]
      omega

theorem getN_set_self {store : List (Option LRUKNode)} {f : Nat}
    (v : Option LRUKNode) (h : f < store.length) :
    getN (store.set f v) f = v := by
  induction store generalizing f with
  | nil => simp at h
  | cons x xs ih =>
    cases f with
    | zero => rfl
    | succ f =>
      simp only [List.set_cons_succ]
      rw [getN_cons_succ]
      exact ih (by simpa using h)

theorem getN_set_ne {store : List (Option LRUKNode)} {f g : Nat}
    (v : Option LRUKNode) (h : f ≠ g) :
    getN (store.set f v) g = getN store g := by
  induction store generalizing f g with
  | nil => cases f <;> rfl
  | cons x xs ih =>
    cases f with
    | zero =>
      cases g with
      | zero => exact absurd rfl h
      | succ g => rfl
    | succ f =>
      cases g with
      | zero => rfl
      | succ g =>
        simp only [List.set_cons_succ]
        rw [getN_cons_succ, getN_cons_succ]
        exact ih (fun hh => h (by omega))

theorem getN_replicate (n f : Nat) : getN (List.replicate n none) f = none := by
  induction n generalizing f with
  | zero => exact getN_nil f
  | succ n ih =>
    cases f with
    | zero => rfl
    | succ f => rw [List.replicate_succ, getN_cons_succ]; exact ih f

/-- Structure LRUKReplacer from lru_k_replacer.h (its data members; the
latches guard the fields and have no sequential content). -/
structure LRUKReplacer where
  replacer_size : Nat
  node_store : List (Option LRUKNode)
  pq : List PQNode
  current_timestamp : Nat := 1
  k : Nat
  num_evictable : Nat := 0
deriving DecidableEq

/-- Constructor LRUKReplacer(num_frames, k): node_store_ holds num_frames
empty optionals, current_timestamp_ starts at 1, num_evictable_ at 0. -/
def LRUKReplacer.init (num_frames k : Nat) : LRUKReplacer :=
  { replacer_size := num_frames
    node_store := List.replicate num_frames none
    pq := []
    k := k }

/-- Read of node_store_[f]. -/
def LRUKReplacer.nodeAt (s : LRUKReplacer) (f : Nat) : Option LRUKNode :=
  getN s.node_store f

/-- Member function LRUKReplacer::RecordAccess (lru_k_replacer.cpp lines
83-107): throws on out-of-range frame ids; creates a node (pushing one
heap entry) on first access; otherwise appends the current timestamp to
the history, dropping the oldest entry when the history is full; finally
increments the timestamp counter. -/
def LRUKReplacer.recordAccess (s : LRUKReplacer) (f : Nat) :
    Except String LRUKReplacer :=
  if s.replacer_size ≤ f then .error "Invalid frame_id"
  else
    match getN s.node_store f with
    | none =>
      let n := LRUKNode.create s.current_timestamp
      .ok { s with
              node_store := s.node_store.set f (some n)
              pq := PQNode.snap f s.k n :: s.pq
              current_timestamp := s.current_timestamp + 1 }
    | some n =>
      .ok { s with
              node_store := s.node_store.set f
                (some { n with history :=
                  (if n.history.length = s.k then n.history.tail else n.history) ++
                    [s.current_timestamp] })
              current_timestamp := s.current_timestamp + 1 }

/-- Member function LRUKReplacer::SetEvictable (lru_k_replacer.cpp lines
109-143): throws on out-of-range frame ids and (as the code is written)
also when no node exists for the frame; no-op when the flag already
matches; on toggle to true pushes a fresh heap entry when the node is not
marked present_in_pq and increments num_evictable_; on toggle to false
decrements num_evictable_. -/
def LRUKReplacer.setEvictable (s : LRUKReplacer) (f : Nat) (b : Bool) :
    Except String LRUKReplacer :=
  if s.replacer_size ≤ f then .error "Invalid frame_id"
  else
    match getN s.node_store f with
    | none => .error "Invalid frame_id"
    | some n =>
      if n.is_evictable = b then .ok s
      else if b then
        .ok { s with
                node_store := s.node_store.set f
                  (some { n with is_evictable := true, present_in_pq := true })
                pq := if n.present_in_pq then s.pq else PQNode.snap f s.k n :: s.pq
                num_evictable := s.num_evictable + 1 }
      else
        .ok { s with
                node_store := s.node_store.set f (some { n with is_evictable := false })
                num_evictable := s.num_evictable - 1 }

/-- Member function LRUKReplacer::Remove (lru_k_replacer.cpp lines
145-163): throws on out-of-range frame ids, on absent nodes and on
non-evictable nodes; otherwise drops the node.  Note the source does not
decrement num_evictable_ here. -/
def LRUKReplacer.remove (s : LRUKReplacer) (f : Nat) :
    Except String LRUKReplacer :=
  if s.replacer_size ≤ f then .error "Invalid frame_id"
  else
    match getN s.node_store f with
    | none => .error "Invalid frame_id"
    | some n =>
      if n.is_evictable then .ok { s with node_store := s.node_store.set f none }
      else .error "Frame not evictable"

/-- Freshness test performed by LRUKReplacer::Evict (lru_k_replacer.cpp
lines 50-65), as the negation of its two staleness checks: when the
history holds exactly k timestamps the entry must snapshot the current
front as its k-th-last timestamp; otherwise the entry must snapshot
TIMESTAMP_NEG_INF and the current front as its earliest timestamp. -/
def matchesTop (k : Nat) (n : LRUKNode) (top : PQNode) : Bool :=
  if n.history.length = k then
    top.kth_last_timestamp == n.history.headD 0
  else
    (top.kth_last_timestamp == TIMESTAMP_NEG_INF) &&
      (top.earliest_timestamp == n.history.headD 0)

theorem matchesTop_snap (k f : Nat) (n : LRUKNode) :
    matchesTop k n (PQNode.snap f k n) = true := by
  unfold matchesTop PQNode.snap
  by_cases h : n.history.length = k <;> simp [h]

/-- Heap entries that, when popped by Evict, would be re-pushed as fresh
snapshots: the node exists, was not created after the snapshot, and the
snapshot fails the freshness test.  Used only as a termination measure. -/
def repushableB (k : Nat) (store : List (Option LRUKNode)) (e : PQNode) : Bool :=
  match getN store e.frame_id with
  | none => false
  | some n =>
    decide (n.timestamp_added ≤ e.earliest_timestamp) && !(matchesTop k n e)

def pendingCount (k : Nat) (store : List (Option LRUKNode)) (pq : List PQNode) : Nat :=
  pq.countP (repushableB k store)

theorem pendingCount_pop {k : Nat} {store : List (Option LRUKNode)}
    {pq rest : List PQNode} {top : PQNode} (h : popMin pq = some (top, rest)) :
    pendingCount k store pq =
      (if repushableB k store top then 1 else 0) + pendingCount k store rest ∧
    pq.length = rest.length + 1 := by
  have hp := popMin_perm h
  constructor
  · have hc := hp.countP_eq (repushableB k store)
    rw [pendingCount, pendingCount, hc, List.countP_cons]
    by_cases hb : repushableB k store top <;> simp [hb] <;> omega
  · simpa using hp.length_eq

theorem repushableB_set_present {k : Nat} {store : List (Option LRUKNode)}
    {f : Nat} {node : LRUKNode} (b : Bool) (h : getN store f = some node)
    (e : PQNode) :
    repushableB k (store.set f (some { node with present_in_pq := b })) e =
      repushableB k store e := by
  unfold repushableB
  by_cases hf : e.frame_id = f
  · rw [hf, getN_set_self _ (getN_some_lt h), h]
    simp [matchesTop]
  · rw [getN_set_ne _ (fun hh => hf hh.symm)]

theorem pendingCount_set_present {k : Nat} {store : List (Option LRUKNode)}
    {f : Nat} {node : LRUKNode} (b : Bool) (h : getN store f = some node)
    (pq : List PQNode) :
    pendingCount k (store.set f (some { node with present_in_pq := b })) pq =
      pendingCount k store pq := by
  unfold pendingCount
  exact List.countP_congr (fun e _ => by rw [repushableB_set_present b h e])

/-- The while loop of LRUKReplacer::Evict (lru_k_replacer.cpp lines
34-79): repeatedly pop the top heap entry; discard entries for absent
nodes and entries from removed incarnations (timestamp_added_ above the
snapshot's earliest timestamp); re-push a fresh snapshot for outdated
entries; for exact entries of non-evictable nodes clear present_in_pq_
and continue; for exact entries of evictable nodes drop the node and
return the frame id.  Returns the result together with the mutated
node_store_ and pq_. -/
def evictLoop (k : Nat) (store : List (Option LRUKNode)) (pq : List PQNode) :
    Option Nat × List (Option LRUKNode) × List PQNode :=
  match hpop : popMin pq with
  | none => (none, store, pq)
  | some (top, rest) =>
    match hnode : getN store top.frame_id with
    | none => evictLoop k store rest
    | some node =>
      if hgt : top.earliest_timestamp < node.timestamp_added then
        evictLoop k store rest
      else if hm : matchesTop k node top then
        if node.is_evictable then
          (some top.frame_id, store.set top.frame_id none, rest)
        else
          evictLoop k (store.set top.frame_id (some { node with present_in_pq := false })) rest
      else
        evictLoop k store (PQNode.snap top.frame_id k node :: rest)
termination_by pendingCount k store pq + pq.length
decreasing_by
  · obtain ⟨h1, h2⟩ := @pendingCount_pop k store _ _ _ hpop
    by_cases hb : repushableB k store top <;> simp [hb] at h1 <;> omega
  · obtain ⟨h1, h2⟩ := @pendingCount_pop k store _ _ _ hpop
    by_cases hb : repushableB k store top <;> simp [hb] at h1 <;> omega
  · obtain ⟨h1, h2⟩ := @pendingCount_pop k store _ _ _ hpop
    rw [pendingCount_set_present false hnode]
    by_cases hb : repushableB k store top <;> simp [hb] at h1 <;> omega
  · obtain ⟨h1, h2⟩ := @pendingCount_pop k store _ _ _ hpop
    have htop : repushableB k store top = true := by
      unfold repushableB
      rw [hnode]
      simp only [Bool.and_eq_true, decide_eq_true_eq, Bool.not_eq_true']
      exact ⟨by omega, by simpa using hm⟩
    have hsnap : repushableB k store (PQNode.snap top.frame_id k node) = false := by
      unfold repushableB
      rw [show (PQNode.snap top.frame_id k node).frame_id = top.frame_id from rfl, hnode]
      simp [matchesTop_snap]
    rw [htop] at h1
    simp only [if_true] at h1
    have hpc : pendingCount k store (PQNode.snap top.frame_id k node :: rest) =
        pendingCount k store rest := by
      unfold pendingCount
      rw [List.countP_cons, hsnap]
      simp
    rw [hpc]
    simp only [List.length_cons]
    omega

theorem evictLoop_empty {k : Nat} {store : List (Option LRUKNode)} {pq : List PQNode}
    (h : popMin pq = none) : evictLoop k store pq = (none, store, pq) := by
  rw [evictLoop.eq_def]
  split
  · rfl
  · next top' rest' hpop => rw [h] at hpop; cases hpop

theorem evictLoop_absent {k : Nat} {store : List (Option LRUKNode)}
    {pq rest : List PQNode} {top : PQNode} (h : popMin pq = some (top, rest))
    (hn : getN store top.frame_id = none) :
    evictLoop k store pq = evictLoop k store rest := by
  rw [evictLoop.eq_def]
  split
  · next hpop => rw [h] at hpop; cases hpop
  · next top' rest' hpop =>
      rw [h] at hpop; cases hpop
      split
      · rfl
      · next node hnode => rw [hn] at hnode; cases hnode

theorem evictLoop_dead {k : Nat} {store : List (Option LRUKNode)}
    {pq rest : List PQNode} {top : PQNode} {node : LRUKNode}
    (h : popMin pq = some (top, rest))
    (hn : getN store top.frame_id = some node)
    (hd : top.earliest_timestamp < node.timestamp_added) :
    evictLoop k store pq = evictLoop k store rest := by
  rw [evictLoop.eq_def]
  split
  · next hpop => rw [h] at hpop; cases hpop
  · next top' rest' hpop =>
      rw [h] at hpop; cases hpop
      split
      · next hnode => simp [hn] at hnode
      · next node' hnode =>
          rw [hn] at hnode; cases hnode
          rw [dif_pos hd]

theorem evictLoop_found {k : Nat} {store : List (Option LRUKNode)}
    {pq rest : List PQNode} {top : PQNode} {node : LRUKNode}
    (h : popMin pq = some (top, rest))
    (hn : getN store top.frame_id = some node)
    (hd : ¬ top.earliest_timestamp < node.timestamp_added)
    (hm : matchesTop k node top = true)
    (he : node.is_evictable = true) :
    evictLoop k store pq = (some top.frame_id, store.set top.frame_id none, rest) := by
  rw [evictLoop.eq_def]
  split
  · next hpop => rw [h] at hpop; cases hpop
  · next top' rest' hpop =>
      rw [h] at hpop; cases hpop
      split
      · next hnode => simp [hn] at hnode
      · next node' hnode =>
          rw [hn] at hnode; cases hnode
          rw [dif_neg hd, dif_pos hm, if_pos he]

theorem evictLoop_clear {k : Nat} {store : List (Option LRUKNode)}
    {pq rest : List PQNode} {top : PQNode} {node : LRUKNode}
    (h : popMin pq = some (top, rest))
    (hn : getN store top.frame_id = some node)
    (hd : ¬ top.earliest_timestamp < node.timestamp_added)
    (hm : matchesTop k node top = true)
    (he : node.is_evictable = false) :
    evictLoop k store pq =
      evictLoop k (store.set top.frame_id (some { node with present_in_pq := false })) rest := by
  rw [evictLoop.eq_def]
  split
  · next hpop => rw [h] at hpop; cases hpop
  · next top' rest' hpop =>
      rw [h] at hpop; cases hpop
      split
      · next hnode => simp [hn] at hnode
      · next node' hnode =>
          rw [hn] at hnode; cases hnode
          rw [dif_neg hd, dif_pos hm, if_neg (by simp [he])]

theorem evictLoop_repush {k : Nat} {store : List (Option LRUKNode)}
    {pq rest : List PQNode} {top : PQNode} {node : LRUKNode}
    (h : popMin pq = some (top, rest))
    (hn : getN store top.frame_id = some node)
    (hd : ¬ top.earliest_timestamp < node.timestamp_added)
    (hm : matchesTop k node top = false) :
    evictLoop k store pq =
      evictLoop k store (PQNode.snap top.frame_id k node :: rest) := by
  rw [evictLoop.eq_def]
  split
  · next hpop => rw [h] at hpop; cases hpop
  · next top' rest' hpop =>
      rw [h] at hpop; cases hpop
      split
      · next hnode => simp [hn] at hnode
      · next node' hnode =>
          rw [hn] at hnode; cases hnode
          rw [dif_neg hd, dif_neg (by simp [hm])]

theorem PQNode.keyLE_of_eq_left {a a' b : PQNode}
    (h1 : a.kth_last_timestamp = a'.kth_last_timestamp)
    (h2 : a.earliest_timestamp = a'.earliest_timestamp)
    (h : a.keyLE b) : a'.keyLE b := by
  unfold PQNode.keyLE at *; omega

theorem snap_shape (f k : Nat) (n : LRUKNode) :
    (PQNode.snap f k n).kth_last_timestamp = 0 ∨
      (PQNode.snap f k n).kth_last_timestamp = (PQNode.snap f k n).earliest_timestamp := by
  unfold PQNode.snap TIMESTAMP_NEG_INF
  by_cases h : n.history.length = k <;> simp [h]

theorem snap_congr {f k : Nat} {n m : LRUKNode} (h : n.history = m.history) :
    PQNode.snap f k n = PQNode.snap f k m := by
  unfold PQNode.snap; rw [h]

theorem keyLE_snap_snap (a b k : Nat) (n : LRUKNode) :
    (PQNode.snap a k n).keyLE (PQNode.snap b k n) :=
  Or.inr ⟨rfl, Nat.le_refl _⟩

/-- An exact heap entry carries precisely the key of a fresh snapshot of
the node: the partial comparison performed by the code (which skips the
earliest-timestamp check when the history is full) is complete because
every entry snapshots either TIMESTAMP_NEG_INF or its own earliest
timestamp as its k-th-last timestamp, and live history fronts are
positive. -/
theorem matchesTop_key_eq {k : Nat} {n : LRUKNode} {top : PQNode}
    (hm : matchesTop k n top = true)
    (hshape : top.kth_last_timestamp = 0 ∨
      top.kth_last_timestamp = top.earliest_timestamp)
    (hhead : 1 ≤ n.history.headD 0) (f : Nat) :
    top.kth_last_timestamp = (PQNode.snap f k n).kth_last_timestamp ∧
      top.earliest_timestamp = (PQNode.snap f k n).earliest_timestamp := by
  unfold matchesTop at hm
  unfold PQNode.snap TIMESTAMP_NEG_INF at *
  by_cases hl : n.history.length = k
  · rw [if_pos hl] at hm
    simp only [if_pos hl]
    simp only [beq_iff_eq] at hm
    exact ⟨hm, by omega⟩
  · rw [if_neg hl] at hm
    simp only [if_neg hl]
    simp only [Bool.and_eq_true, beq_iff_eq] at hm
    exact ⟨hm.1, hm.2⟩

theorem popMin_mem_cases {pq rest : List PQNode} {top e : PQNode}
    (h : popMin pq = some (top, rest)) (he : e ∈ pq) : e = top ∨ e ∈ rest :=
  List.mem_cons.1 ((popMin_perm h).mem_iff.1 he)

theorem popMin_mem_rest {pq rest : List PQNode} {top e : PQNode}
    (h : popMin pq = some (top, rest)) (he : e ∈ rest) : e ∈ pq :=
  (popMin_perm h).mem_iff.2 (List.mem_cons_of_mem _ he)

theorem popMin_top_mem {pq rest : List PQNode} {top : PQNode}
    (h : popMin pq = some (top, rest)) : top ∈ pq :=
  (popMin_perm h).mem_iff.2 (List.mem_cons_self _ _)

/-- Coverage of a node by the heap: some entry for this frame was pushed
during the node's current incarnation (its snapshot is no older than the
node's creation timestamp) and its key lower-bounds the key of a fresh
snapshot of the node. -/
def Covers (k : Nat) (pq : List PQNode) (f : Nat) (n : LRUKNode) : Prop :=
  ∃ e ∈ pq, e.frame_id = f ∧ n.timestamp_added ≤ e.earliest_timestamp ∧
    e.keyLE (PQNode.snap f k n)

/-- Invariant carried through the eviction loop: nodes have positive
creation timestamps bounded by their history front, history fronts are
distinct across frames, entries snapshot TIMESTAMP_NEG_INF or their own
earliest timestamp as their k-th-last timestamp, evictable nodes are
flagged present_in_pq, and flagged nodes are covered by the heap. -/
structure LoopWF (k : Nat) (store : List (Option LRUKNode)) (pq : List PQNode) : Prop where
  node_head : ∀ f n, getN store f = some n →
      1 ≤ n.timestamp_added ∧ n.timestamp_added ≤ n.history.headD 0
  heads_ne : ∀ f g nf ng, f ≠ g → getN store f = some nf → getN store g = some ng →
      nf.history.headD 0 ≠ ng.history.headD 0
  pq_shape : ∀ e ∈ pq, e.kth_last_timestamp = 0 ∨
      e.kth_last_timestamp = e.earliest_timestamp
  ev_present : ∀ f n, getN store f = some n → n.is_evictable = true →
      n.present_in_pq = true
  covers : ∀ f n, getN store f = some n → n.present_in_pq = true → Covers k pq f n

/-- Behaviour of the eviction loop from a state satisfying the loop
invariant: a returned victim is an evictable node whose snapshot key is
minimal among evictable nodes (so its backward K-distance is maximal); a
failed loop certifies that no node is evictable; surviving nodes keep
their history, creation timestamp and evictable flag; new heap entries
are fresh snapshots of existing nodes; and the loop invariant's
coverage clauses are re-established for the post state. -/
structure EvictLoopSpec (k : Nat) (store : List (Option LRUKNode)) (pq : List PQNode) : Prop where
  success : ∀ f, (evictLoop k store pq).1 = some f →
      ∃ n, getN store f = some n ∧ n.is_evictable = true ∧
        ∀ g m, getN store g = some m → m.is_evictable = true →
          (PQNode.snap f k n).keyLE (PQNode.snap g k m)
  failure : (evictLoop k store pq).1 = none →
      ∀ f n, getN store f = some n → n.is_evictable = false
  nodes : ∀ f n', getN (evictLoop k store pq).2.1 f = some n' →
      ∃ n, getN store f = some n ∧ n'.history = n.history ∧
        n'.timestamp_added = n.timestamp_added ∧ n'.is_evictable = n.is_evictable
  entries : ∀ e ∈ (evictLoop k store pq).2.2,
      e ∈ pq ∨ ∃ f n, getN store f = some n ∧ e = PQNode.snap f k n
  post_ev : ∀ f n', getN (evictLoop k store pq).2.1 f = some n' →
      n'.is_evictable = true → n'.present_in_pq = true
  post_cov : ∀ f n', getN (evictLoop k store pq).2.1 f = some n' →
      n'.present_in_pq = true → Covers k (evictLoop k store pq).2.2 f n'
  len : (evictLoop k store pq).2.1.length = store.length

theorem evictLoop_spec (k : Nat) (store : List (Option LRUKNode)) (pq : List PQNode) :
    LoopWF k store pq → EvictLoopSpec k store pq := by
  induction store, pq using evictLoop.induct k with
  | case1 store pq hpop =>
    intro hw
    have heq := @evictLoop_empty k store _ hpop
    have hpq : pq = [] := popMin_eq_none.1 hpop
    constructor
    · intro f hf
      rw [heq] at hf
      exact Option.noConfusion hf
    · intro _ f n hn
      cases hb : n.is_evictable with
      | false => rfl
      | true =>
        exfalso
        obtain ⟨e, he, -⟩ := hw.covers f n hn (hw.ev_present f n hn hb)
        rw [hpq] at he
        exact absurd he (List.not_mem_nil e)
    · intro f n' hn'
      rw [heq] at hn'
      exact ⟨n', hn', rfl, rfl, rfl⟩
    · intro e he
      rw [heq] at he
      exact Or.inl he
    · intro f n' hn'
      rw [heq] at hn'
      exact hw.ev_present f n' hn'
    · intro f n' hn' hp
      rw [heq] at hn' ⊢
      exact hw.covers f n' hn' hp
    · rw [heq]
  | case2 store pq top rest hpop hnode ih =>
    intro hw
    have heq := @evictLoop_absent k _ _ _ _ hpop hnode
    have hw' : LoopWF k store rest := by
      refine ⟨hw.node_head, hw.heads_ne, ?_, hw.ev_present, ?_⟩
      · intro e he
        exact hw.pq_shape e (popMin_mem_rest hpop he)
      · intro f n hn hp
        obtain ⟨e, he, hef, hadd, hkey⟩ := hw.covers f n hn hp
        rcases popMin_mem_cases hpop he with he_top | he'
        · have h1 : getN store f = none := by rw [← hef, he_top]; exact hnode
          exact absurd hn (by rw [h1]; simp)
        · exact ⟨e, he', hef, hadd, hkey⟩
    have IH := ih hw'
    constructor
    · intro f hf; rw [heq] at hf; exact IH.success f hf
    · intro hf; rw [heq] at hf; exact IH.failure hf
    · intro f n' hn'; rw [heq] at hn'; exact IH.nodes f n' hn'
    · intro e he
      rw [heq] at he
      rcases IH.entries e he with he' | hsnap
      · exact Or.inl (popMin_mem_rest hpop he')
      · exact Or.inr hsnap
    · intro f n' hn'; rw [heq] at hn'; exact IH.post_ev f n' hn'
    · intro f n' hn' hp
      rw [heq] at hn' ⊢
      exact IH.post_cov f n' hn' hp
    · rw [heq]; exact IH.len
  | case3 store pq top rest hpop node hnode hd ih =>
    intro hw
    have heq := @evictLoop_dead k _ _ _ _ _ hpop hnode hd
    have hw' : LoopWF k store rest := by
      refine ⟨hw.node_head, hw.heads_ne, ?_, hw.ev_present, ?_⟩
      · intro e he
        exact hw.pq_shape e (popMin_mem_rest hpop he)
      · intro f n hn hp
        obtain ⟨e, he, hef, hadd, hkey⟩ := hw.covers f n hn hp
        rcases popMin_mem_cases hpop he with he_top | he'
        · exfalso
          have h1 : getN store f = some node := by rw [← hef, he_top]; exact hnode
          rw [hn] at h1
          injection h1 with h2
          rw [he_top] at hadd
          rw [← h2] at hd
          omega
        · exact ⟨e, he', hef, hadd, hkey⟩
    have IH := ih hw'
    constructor
    · intro f hf; rw [heq] at hf; exact IH.success f hf
    · intro hf; rw [heq] at hf; exact IH.failure hf
    · intro f n' hn'; rw [heq] at hn'; exact IH.nodes f n' hn'
    · intro e he
      rw [heq] at he
      rcases IH.entries e he with he' | hsnap
      · exact Or.inl (popMin_mem_rest hpop he')
      · exact Or.inr hsnap
    · intro f n' hn'; rw [heq] at hn'; exact IH.post_ev f n' hn'
    · intro f n' hn' hp
      rw [heq] at hn' ⊢
      exact IH.post_cov f n' hn' hp
    · rw [heq]; exact IH.len
  | case4 store pq top rest hpop node hnode hd hm hev =>
    intro hw
    have heq := @evictLoop_found k _ _ _ _ _ hpop hnode hd hm hev
    have hklt : 1 ≤ node.history.headD 0 := by
      have := hw.node_head top.frame_id node hnode; omega
    have hkey := matchesTop_key_eq hm (hw.pq_shape top (popMin_top_mem hpop)) hklt
      top.frame_id
    constructor
    · intro f hf
      rw [heq] at hf
      have hf2 : some top.frame_id = some f := hf
      injection hf2 with hf3
      subst hf3
      refine ⟨node, hnode, hev, ?_⟩
      intro g m hg hgev
      obtain ⟨e, he, hef, hadd, hkeyg⟩ := hw.covers g m hg (hw.ev_present g m hg hgev)
      have hmin := popMin_min hpop e he
      exact PQNode.keyLE_trans (PQNode.keyLE_of_eq_left hkey.1 hkey.2 hmin) hkeyg
    · intro hf
      rw [heq] at hf
      exact Option.noConfusion hf
    · intro f n' hn'
      rw [heq] at hn'
      by_cases hfe : f = top.frame_id
      · subst hfe
        rw [getN_set_self _ (getN_some_lt hnode)] at hn'
        exact Option.noConfusion hn'
      · rw [getN_set_ne _ (fun hh => hfe hh.symm)] at hn'
        exact ⟨n', hn', rfl, rfl, rfl⟩
    · intro e he
      rw [heq] at he
      exact Or.inl (popMin_mem_rest hpop he)
    · intro f n' hn'
      rw [heq] at hn'
      by_cases hfe : f = top.frame_id
      · subst hfe
        rw [getN_set_self _ (getN_some_lt hnode)] at hn'
        exact Option.noConfusion hn'
      · rw [getN_set_ne _ (fun hh => hfe hh.symm)] at hn'
        exact hw.ev_present f n' hn'
    · intro f n' hn' hp
      rw [heq] at hn' ⊢
      by_cases hfe : f = top.frame_id
      · subst hfe
        rw [getN_set_self _ (getN_some_lt hnode)] at hn'
        exact Option.noConfusion hn'
      · rw [getN_set_ne _ (fun hh => hfe hh.symm)] at hn'
        obtain ⟨e, he, hef, hadd, hkeyg⟩ := hw.covers f n' hn' hp
        rcases popMin_mem_cases hpop he with he_top | he'
        · exfalso
          rw [he_top] at hef
          exact hfe hef.symm
        · exact ⟨e, he', hef, hadd, hkeyg⟩
    · rw [heq]
      exact List.length_set _ _ _
  | case5 store pq top rest hpop node hnode hd hm hev ih =>
    intro hw
    have he2 : node.is_evictable = false := by
      cases hb : node.is_evictable
      · rfl
      · exact absurd hb hev
    have heq := @evictLoop_clear k _ _ _ _ _ hpop hnode hd hm he2
    have hget : ∀ x m,
        getN (store.set top.frame_id (some { node with present_in_pq := false })) x = some m →
        ∃ m0, getN store x = some m0 ∧ m.history = m0.history ∧
          m.timestamp_added = m0.timestamp_added ∧ m.is_evictable = m0.is_evictable := by
      intro x m hx
      by_cases hxe : x = top.frame_id
      · subst hxe
        rw [getN_set_self _ (getN_some_lt hnode)] at hx
        injection hx with hx'
        subst hx'
        exact ⟨node, hnode, rfl, rfl, rfl⟩
      · rw [getN_set_ne _ (fun hh => hxe hh.symm)] at hx
        exact ⟨m, hx, rfl, rfl, rfl⟩
    have hw' : LoopWF k (store.set top.frame_id (some { node with present_in_pq := false })) rest := by
      refine ⟨?_, ?_, ?_, ?_, ?_⟩
      · intro f n hn
        obtain ⟨m0, h0, hh, ht, -⟩ := hget f n hn
        rw [ht, hh]
        exact hw.node_head f m0 h0
      · intro f g nf ng hfg hf hg
        obtain ⟨mf, h0f, hhf, -, -⟩ := hget f nf hf
        obtain ⟨mg, h0g, hhg, -, -⟩ := hget g ng hg
        rw [hhf, hhg]
        exact hw.heads_ne f g mf mg hfg h0f h0g
      · intro e he
        exact hw.pq_shape e (popMin_mem_rest hpop he)
      · intro f n hn hev3
        by_cases hxe : f = top.frame_id
        · subst hxe
          rw [getN_set_self _ (getN_some_lt hnode)] at hn
          injection hn with hn'
          subst hn'
          exact absurd hev3 (by simp [he2])
        · rw [getN_set_ne _ (fun hh => hxe hh.symm)] at hn
          exact hw.ev_present f n hn hev3
      · intro f n hn hp
        by_cases hxe : f = top.frame_id
        · subst hxe
          rw [getN_set_self _ (getN_some_lt hnode)] at hn
          injection hn with hn'
          subst hn'
          exact absurd hp (by simp)
        · rw [getN_set_ne _ (fun hh => hxe hh.symm)] at hn
          obtain ⟨e, he, hef, hadd, hkey⟩ := hw.covers f n hn hp
          rcases popMin_mem_cases hpop he with he_top | he'
          · exfalso
            rw [he_top] at hef
            exact hxe hef.symm
          · exact ⟨e, he', hef, hadd, hkey⟩
    have IH := ih hw'
    constructor
    · intro f hf
      rw [heq] at hf
      obtain ⟨n, hn, hnev, hmin⟩ := IH.success f hf
      obtain ⟨m0, h0, hh, -, hevq⟩ := hget f n hn
      refine ⟨m0, h0, by rw [← hevq]; exact hnev, ?_⟩
      intro g m hg hmev
      by_cases hge : g = top.frame_id
      · subst hge
        rw [hnode] at hg
        injection hg with hg'
        rw [← hg'] at hmev
        exact absurd hmev (by simp [he2])
      · have hg2 : getN (store.set top.frame_id
            (some { node with present_in_pq := false })) g = some m := by
          rw [getN_set_ne _ (fun hh2 => hge hh2.symm)]; exact hg
        have hres := hmin g m hg2 hmev
        rw [snap_congr hh] at hres
        exact hres
    · intro hf
      rw [heq] at hf
      intro f n hn
      by_cases hge : f = top.frame_id
      · subst hge
        rw [hnode] at hn
        injection hn with hn'
        rw [← hn']
        exact he2
      · have hg2 : getN (store.set top.frame_id
            (some { node with present_in_pq := false })) f = some n := by
          rw [getN_set_ne _ (fun hh2 => hge hh2.symm)]; exact hn
        exact IH.failure hf f n hg2
    · intro f n' hn'
      rw [heq] at hn'
      obtain ⟨n2, hn2, hh2, ht2, hev2q⟩ := IH.nodes f n' hn'
      obtain ⟨m0, h0, hh0, ht0, hev0⟩ := hget f n2 hn2
      exact ⟨m0, h0, by rw [hh2, hh0], by rw [ht2, ht0], by rw [hev2q, hev0]⟩
    · intro e he
      rw [heq] at he
      rcases IH.entries e he with he' | hsnap
      · exact Or.inl (popMin_mem_rest hpop he')
      · obtain ⟨f, n2, hn2, hesnap⟩ := hsnap
        obtain ⟨m0, h0, hh0, -, -⟩ := hget f n2 hn2
        exact Or.inr ⟨f, m0, h0, by rw [hesnap]; exact snap_congr hh0⟩
    · intro f n' hn'
      rw [heq] at hn'
      exact IH.post_ev f n' hn'
    · intro f n' hn' hp
      rw [heq] at hn' ⊢
      exact IH.post_cov f n' hn' hp
    · rw [heq]
      rw [IH.len]
      exact List.length_set _ _ _
  | case6 store pq top rest hpop node hnode hd hm ih =>
    intro hw
    have hm2 : matchesTop k node top = false := by
      cases hb : matchesTop k node top
      · rfl
      · exact absurd hb hm
    have heq := @evictLoop_repush k _ _ _ _ _ hpop hnode hd hm2
    have hw' : LoopWF k store (PQNode.snap top.frame_id k node :: rest) := by
      refine ⟨hw.node_head, hw.heads_ne, ?_, hw.ev_present, ?_⟩
      · intro e he
        rcases List.mem_cons.1 he with rfl | he'
        · exact snap_shape top.frame_id k node
        · exact hw.pq_shape e (popMin_mem_rest hpop he')
      · intro f n hn hp
        obtain ⟨e, he, hef, hadd, hkey⟩ := hw.covers f n hn hp
        rcases popMin_mem_cases hpop he with he_top | he'
        · have h1 : getN store f = some node := by rw [← hef, he_top]; exact hnode
          rw [hn] at h1
          injection h1 with h2
          refine ⟨PQNode.snap top.frame_id k node, List.mem_cons_self _ _, ?_, ?_, ?_⟩
          · show top.frame_id = f
            rw [← he_top]; exact hef
          · show n.timestamp_added ≤ node.history.headD 0
            rw [h2]
            exact (hw.node_head f node (by rw [← h2]; exact hn)).2
          · rw [h2]
            exact keyLE_snap_snap _ _ _ _
        · exact ⟨e, List.mem_cons_of_mem _ he', hef, hadd, hkey⟩
    have IH := ih hw'
    constructor
    · intro f hf; rw [heq] at hf; exact IH.success f hf
    · intro hf; rw [heq] at hf; exact IH.failure hf
    · intro f n' hn'; rw [heq] at hn'; exact IH.nodes f n' hn'
    · intro e he
      rw [heq] at he
      rcases IH.entries e he with he' | hsnap
      · rcases List.mem_cons.1 he' with rfl | he''
        · exact Or.inr ⟨top.frame_id, node, hnode, rfl⟩
        · exact Or.inl (popMin_mem_rest hpop he'')
      · exact Or.inr hsnap
    · intro f n' hn'; rw [heq] at hn'; exact IH.post_ev f n' hn'
    · intro f n' hn' hp
      rw [heq] at hn' ⊢
      exact IH.post_cov f n' hn' hp
    · rw [heq]; exact IH.len

/-- Member function LRUKReplacer::Evict (lru_k_replacer.cpp lines 31-81):
run the loop; on success additionally decrement num_evictable_.  The
C++ signature writes the victim through an out-parameter and returns a
Bool; here the pair of the optional victim and the post state is
returned. -/
def LRUKReplacer.evict (s : LRUKReplacer) : Option Nat × LRUKReplacer :=
  match evictLoop s.k s.node_store s.pq with
  | (some f, store', pq') =>
    (some f, { s with node_store := store', pq := pq',
                      num_evictable := s.num_evictable - 1 })
  | (none, store', pq') =>
    (none, { s with node_store := store', pq := pq' })

/-- Member function LRUKReplacer::Size (lru_k_replacer.cpp lines 165-169). -/
def LRUKReplacer.size (s : LRUKReplacer) : Nat := s.num_evictable

theorem headD_mem {l : List Nat} (h : l ≠ []) : l.headD 0 ∈ l := by
  cases l with
  | nil => exact absurd rfl h
  | cons a t => simp

/-- Well-formedness of a single live node under history bound kk and
timestamp bound T. -/
structure NodeWF (kk T : Nat) (n : LRUKNode) : Prop where
  ne : n.history ≠ []
  sorted : n.history.Pairwise (· < ·)
  len_le : n.history.length ≤ kk
  mem_ge : ∀ t ∈ n.history, n.timestamp_added ≤ t
  mem_lt : ∀ t ∈ n.history, t < T
  added_pos : 1 ≤ n.timestamp_added

theorem NodeWF.head_ge {kk T : Nat} {n : LRUKNode} (h : NodeWF kk T n) :
    n.timestamp_added ≤ n.history.headD 0 :=
  h.mem_ge _ (headD_mem h.ne)

theorem NodeWF.head_pos {kk T : Nat} {n : LRUKNode} (h : NodeWF kk T n) :
    1 ≤ n.history.headD 0 :=
  Nat.le_trans h.added_pos h.head_ge

theorem NodeWF.head_lt {kk T : Nat} {n : LRUKNode} (h : NodeWF kk T n) :
    n.history.headD 0 < T :=
  h.mem_lt _ (headD_mem h.ne)

/-- Reachability invariant of the whole replacer: histories are non-empty
strictly increasing queues of at most k timestamps below the running
counter, at least the node's creation timestamp and positive; histories of
distinct frames are disjoint; heap entries snapshot TIMESTAMP_NEG_INF or
their own earliest timestamp as their k-th-last timestamp; evictable nodes
are flagged present_in_pq; flagged nodes are covered by the heap. -/
structure WF (s : LRUKReplacer) : Prop where
  store_len : s.node_store.length = s.replacer_size
  k_pos : 1 ≤ s.k
  ts_pos : 1 ≤ s.current_timestamp
  node_wf : ∀ f n, s.nodeAt f = some n → NodeWF s.k s.current_timestamp n
  disj : ∀ f g nf ng, f ≠ g → s.nodeAt f = some nf → s.nodeAt g = some ng →
      ∀ t ∈ nf.history, t ∉ ng.history
  pq_shape : ∀ e ∈ s.pq, e.kth_last_timestamp = 0 ∨
      e.kth_last_timestamp = e.earliest_timestamp
  ev_present : ∀ f n, s.nodeAt f = some n → n.is_evictable = true →
      n.present_in_pq = true
  covers : ∀ f n, s.nodeAt f = some n → n.present_in_pq = true →
      Covers s.k s.pq f n

theorem WF.toLoopWF {s : LRUKReplacer} (hw : WF s) :
    LoopWF s.k s.node_store s.pq := by
  refine ⟨?_, ?_, hw.pq_shape, hw.ev_present, hw.covers⟩
  · intro f n hn
    have h := hw.node_wf f n hn
    exact ⟨h.added_pos, h.head_ge⟩
  · intro f g nf ng hfg hf hg
    have h1 := hw.node_wf f nf hf
    have h2 := hw.node_wf g ng hg
    intro hEq
    exact (hw.disj f g nf ng hfg hf hg _ (headD_mem h1.ne)) (hEq ▸ headD_mem h2.ne)

/-- Appending the current timestamp to a node's history (dropping the
front when the history is full) can only raise the node's snapshot key:
the heap keys pushed for a node during one incarnation are monotone. -/
theorem snap_key_mono {f kk T : Nat} {n : LRUKNode} (hwf : NodeWF kk T n) :
    (PQNode.snap f kk n).keyLE (PQNode.snap f kk
      { n with history :=
          (if n.history.length = kk then n.history.tail else n.history) ++ [T] }) := by
  obtain ⟨a, t, hat⟩ : ∃ a t, n.history = a :: t := by
    cases hh : n.history with
    | nil => exact absurd hh hwf.ne
    | cons a t => exact ⟨a, t, rfl⟩
  have hpos : 1 ≤ a := by
    have := hwf.head_pos; rw [hat] at this; simpa using this
  have haT : a < T := hwf.mem_lt a (by rw [hat]; simp)
  unfold PQNode.snap PQNode.keyLE TIMESTAMP_NEG_INF
  dsimp only
  simp only [hat, List.headD_cons]
  by_cases hlk : (a :: t).length = kk
  · rw [if_pos hlk, if_pos hlk]
    simp only [List.tail_cons]
    cases t with
    | nil =>
      have hone : ((([] : List Nat) ++ [T]).length = kk) := by
        simpa using hlk
      rw [if_pos hone]
      simp only [List.nil_append, List.headD_cons]
      omega
    | cons b t' =>
      have hab : a < b := by
        have hs := hwf.sorted
        rw [hat] at hs
        exact (List.pairwise_cons.1 hs).1 b (by simp)
      have hlen2 : (((b :: t') ++ [T]).length = kk) := by
        simp only [List.length_cons, List.length_append, List.length_singleton,
          List.length_nil] at hlk ⊢
        omega
      rw [if_pos hlen2]
      simp only [List.cons_append, List.headD_cons]
      omega
  · rw [if_neg hlk, if_neg hlk]
    simp only [List.cons_append, List.headD_cons]
    by_cases hlen2 : ((a :: (t ++ [T])).length = kk)
    · rw [if_pos hlen2]
      omega
    · rw [if_neg hlen2]
      omega

theorem nodeAt_update (s : LRUKReplacer) {f : Nat} (v : Option LRUKNode)
    (hf : f < s.node_store.length) (g : Nat) :
    getN (s.node_store.set f v) g = if g = f then v else getN s.node_store g := by
  by_cases hgf : g = f
  · subst hgf; rw [getN_set_self v hf, if_pos rfl]
  · rw [getN_set_ne v (fun hh => hgf hh.symm), if_neg hgf]

theorem NodeWF.congr {kk T : Nat} {m m0 : LRUKNode} (h : NodeWF kk T m0)
    (hh : m.history = m0.history) (ht : m.timestamp_added = m0.timestamp_added) :
    NodeWF kk T m := by
  refine ⟨?_, ?_, ?_, ?_, ?_, ?_⟩
  · rw [hh]; exact h.ne
  · rw [hh]; exact h.sorted
  · rw [hh]; exact h.len_le
  · intro x hx; rw [ht]; exact h.mem_ge x (hh ▸ hx)
  · intro x hx; exact h.mem_lt x (hh ▸ hx)
  · rw [ht]; exact h.added_pos

theorem wf_init (num_frames k : Nat) (hk : 1 ≤ k) :
    WF (LRUKReplacer.init num_frames k) := by
  constructor
  · show (List.replicate num_frames none).length = num_frames
    exact List.length_replicate _ _
  · exact hk
  · exact Nat.le_refl 1
  · intro f n hn
    have hn2 : getN (List.replicate num_frames none) f = some n := hn
    rw [getN_replicate] at hn2
    exact Option.noConfusion hn2
  · intro f g nf ng hfg hf hg
    have hf2 : getN (List.replicate num_frames none) f = some nf := hf
    rw [getN_replicate] at hf2
    exact Option.noConfusion hf2
  · intro e he
    exact absurd he (List.not_mem_nil e)
  · intro f n hn
    have hn2 : getN (List.replicate num_frames none) f = some n := hn
    rw [getN_replicate] at hn2
    exact Option.noConfusion hn2
  · intro f n hn
    have hn2 : getN (List.replicate num_frames none) f = some n := hn
    rw [getN_replicate] at hn2
    exact Option.noConfusion hn2

theorem wf_recordAccess {s s' : LRUKReplacer} {f : Nat} (hw : WF s)
    (h : s.recordAccess f = .ok s') : WF s' := by
  unfold LRUKReplacer.recordAccess at h
  by_cases hle : s.replacer_size ≤ f
  · rw [if_pos hle] at h; exact Except.noConfusion h
  rw [if_neg hle] at h
  have hflt : f < s.node_store.length := by
    rw [hw.store_len]; omega
  cases hg : getN s.node_store f with
  | none =>
    rw [hg] at h
    injection h with h'
    subst h'
    refine ⟨?_, hw.k_pos, ?_, ?_, ?_, ?_, ?_, ?_⟩
    · show (s.node_store.set f _).length = s.replacer_size
      rw [List.length_set]; exact hw.store_len
    · show 1 ≤ s.current_timestamp + 1
      omega
    · intro g m hm
      have hm2 : getN (s.node_store.set f
          (some (LRUKNode.create s.current_timestamp))) g = some m := hm
      rw [nodeAt_update s _ hflt g] at hm2
      by_cases hgf : g = f
      · rw [if_pos hgf] at hm2
        injection hm2 with hm'
        subst hm'
        refine ⟨?_, ?_, ?_, ?_, ?_, ?_⟩
        · simp [LRUKNode.create]
        · simp [LRUKNode.create]
        · show (LRUKNode.create s.current_timestamp).history.length ≤ s.k
          simp only [LRUKNode.create, List.length_cons, List.length_nil]
          exact hw.k_pos
        · intro x hx
          simp only [LRUKNode.create, List.mem_singleton] at hx
          subst hx
          exact Nat.le_refl _
        · intro x hx
          simp only [LRUKNode.create, List.mem_singleton] at hx
          subst hx
          show s.current_timestamp < s.current_timestamp + 1
          omega
        · show 1 ≤ s.current_timestamp
          exact hw.ts_pos
      · rw [if_neg hgf] at hm2
        have hn := hw.node_wf g m hm2
        exact ⟨hn.ne, hn.sorted, hn.len_le, hn.mem_ge,
          fun x hx => Nat.lt_succ_of_lt (hn.mem_lt x hx), hn.added_pos⟩
    · intro g1 g2 n1 n2 h12 h1 h2 x hx
      have h1b : getN (s.node_store.set f
          (some (LRUKNode.create s.current_timestamp))) g1 = some n1 := h1
      have h2b : getN (s.node_store.set f
          (some (LRUKNode.create s.current_timestamp))) g2 = some n2 := h2
      rw [nodeAt_update s _ hflt g1] at h1b
      rw [nodeAt_update s _ hflt g2] at h2b
      by_cases hg1 : g1 = f
      · rw [if_pos hg1] at h1b
        injection h1b with h1'
        subst h1'
        simp only [LRUKNode.create, List.mem_singleton] at hx
        subst hx
        have hg2 : ¬ g2 = f := fun hh => h12 (hg1.trans hh.symm)
        rw [if_neg hg2] at h2b
        intro habs
        exact absurd ((hw.node_wf g2 n2 h2b).mem_lt _ habs) (by omega)
      · rw [if_neg hg1] at h1b
        by_cases hg2 : g2 = f
        · rw [if_pos hg2] at h2b
          injection h2b with h2'
          subst h2'
          simp only [LRUKNode.create, List.mem_singleton]
          intro habs
          subst habs
          exact absurd ((hw.node_wf g1 n1 h1b).mem_lt _ hx) (by omega)
        · rw [if_neg hg2] at h2b
          exact hw.disj g1 g2 n1 n2 h12 h1b h2b x hx
    · intro e he
      have he2 : e ∈ PQNode.snap f s.k (LRUKNode.create s.current_timestamp) :: s.pq := he
      rcases List.mem_cons.1 he2 with rfl | he'
      · exact snap_shape f s.k (LRUKNode.create s.current_timestamp)
      · exact hw.pq_shape e he'
    · intro g m hm hev
      have hm2 : getN (s.node_store.set f
          (some (LRUKNode.create s.current_timestamp))) g = some m := hm
      rw [nodeAt_update s _ hflt g] at hm2
      by_cases hgf : g = f
      · rw [if_pos hgf] at hm2
        injection hm2 with hm'
        subst hm'
        rfl
      · rw [if_neg hgf] at hm2
        exact hw.ev_present g m hm2 hev
    · intro g m hm hp
      have hm2 : getN (s.node_store.set f
          (some (LRUKNode.create s.current_timestamp))) g = some m := hm
      rw [nodeAt_update s _ hflt g] at hm2
      show Covers s.k (PQNode.snap f s.k (LRUKNode.create s.current_timestamp) :: s.pq) g m
      by_cases hgf : g = f
      · rw [if_pos hgf] at hm2
        injection hm2 with hm'
        subst hm'
        subst hgf
        refine ⟨PQNode.snap g s.k (LRUKNode.create s.current_timestamp),
          List.mem_cons_self _ _, rfl, ?_, ?_⟩
        · exact Nat.le_refl _
        · exact PQNode.keyLE_refl _
      · rw [if_neg hgf] at hm2
        obtain ⟨e, he, hef, hadd, hkey⟩ := hw.covers g m hm2 hp
        exact ⟨e, List.mem_cons_of_mem _ he, hef, hadd, hkey⟩
  | some n =>
    rw [hg] at h
    injection h with h'
    subst h'
    have hn := hw.node_wf f n hg
    have hH2sub : ∀ x ∈ (if n.history.length = s.k then n.history.tail else n.history),
        x ∈ n.history := by
      intro x hx
      by_cases hc : n.history.length = s.k
      · rw [if_pos hc] at hx; exact List.mem_of_mem_tail hx
      · rw [if_neg hc] at hx; exact hx
    refine ⟨?_, hw.k_pos, ?_, ?_, ?_, ?_, ?_, ?_⟩
    · show (s.node_store.set f _).length = s.replacer_size
      rw [List.length_set]; exact hw.store_len
    · show 1 ≤ s.current_timestamp + 1
      omega
    · intro g m hm
      have hm2 : getN (s.node_store.set f
          (some { n with history :=
            (if n.history.length = s.k then n.history.tail else n.history) ++
              [s.current_timestamp] })) g = some m := hm
      rw [nodeAt_update s _ hflt g] at hm2
      by_cases hgf : g = f
      · rw [if_pos hgf] at hm2
        injection hm2 with hm'
        subst hm'
        refine ⟨?_, ?_, ?_, ?_, ?_, ?_⟩
        · simp
        · show ((if n.history.length = s.k then n.history.tail else n.history) ++
              [s.current_timestamp]).Pairwise (· < ·)
          rw [List.pairwise_append]
          refine ⟨?_, by simp, ?_⟩
          · by_cases hc : n.history.length = s.k
            · rw [if_pos hc]
              exact List.Pairwise.sublist (List.tail_sublist _) hn.sorted
            · rw [if_neg hc]; exact hn.sorted
          · intro x hx y hy
            simp only [List.mem_singleton] at hy
            subst hy
            exact hn.mem_lt x (hH2sub x hx)
        · show ((if n.history.length = s.k then n.history.tail else n.history) ++
              [s.current_timestamp]).length ≤ s.k
          rw [List.length_append]
          simp only [List.length_singleton]
          by_cases hc : n.history.length = s.k
          · rw [if_pos hc, List.length_tail]
            have h1 : 0 < n.history.length := List.length_pos.2 hn.ne
            omega
          · rw [if_neg hc]
            have := hn.len_le
            omega
        · intro x hx
          rcases List.mem_append.1 hx with hx' | hx'
          · exact hn.mem_ge x (hH2sub x hx')
          · simp only [List.mem_singleton] at hx'
            subst hx'
            have h1 := hn.head_lt
            have h2 := hn.head_ge
            show n.timestamp_added ≤ s.current_timestamp
            omega
        · intro x hx
          rcases List.mem_append.1 hx with hx' | hx'
          · exact Nat.lt_succ_of_lt (hn.mem_lt x (hH2sub x hx'))
          · simp only [List.mem_singleton] at hx'
            subst hx'
            show s.current_timestamp < s.current_timestamp + 1
            omega
        · exact hn.added_pos
      · rw [if_neg hgf] at hm2
        have hnm := hw.node_wf g m hm2
        exact ⟨hnm.ne, hnm.sorted, hnm.len_le, hnm.mem_ge,
          fun x hx => Nat.lt_succ_of_lt (hnm.mem_lt x hx), hnm.added_pos⟩
    · intro g1 g2 n1 n2 h12 h1 h2 x hx
      have h1b : getN (s.node_store.set f
          (some { n with history :=
            (if n.history.length = s.k then n.history.tail else n.history) ++
              [s.current_timestamp] })) g1 = some n1 := h1
      have h2b : getN (s.node_store.set f
          (some { n with history :=
            (if n.history.length = s.k then n.history.tail else n.history) ++
              [s.current_timestamp] })) g2 = some n2 := h2
      rw [nodeAt_update s _ hflt g1] at h1b
      rw [nodeAt_update s _ hflt g2] at h2b
      by_cases hg1 : g1 = f
      · rw [if_pos hg1] at h1b
        injection h1b with h1'
        subst h1'
        have hg2 : ¬ g2 = f := fun hh => h12 (hg1.trans hh.symm)
        rw [if_neg hg2] at h2b
        have hx2 : x ∈ (if n.history.length = s.k then n.history.tail else n.history) ++
            [s.current_timestamp] := hx
        rcases List.mem_append.1 hx2 with hx' | hx'
        · exact hw.disj f g2 n n2 (fun hh => hg2 hh.symm) hg h2b x (hH2sub x hx')
        · simp only [List.mem_singleton] at hx'
          subst hx'
          intro habs
          exact absurd ((hw.node_wf g2 n2 h2b).mem_lt _ habs) (by omega)
      · rw [if_neg hg1] at h1b
        by_cases hg2 : g2 = f
        · rw [if_pos hg2] at h2b
          injection h2b with h2'
          subst h2'
          intro habs
          have habs2 : x ∈ (if n.history.length = s.k then n.history.tail
              else n.history) ++ [s.current_timestamp] := habs
          rcases List.mem_append.1 habs2 with hx' | hx'
          · exact absurd (hH2sub x hx')
              (hw.disj g1 f n1 n (fun hh => h12 (hh.trans hg2.symm)) h1b hg x hx)
          · simp only [List.mem_singleton] at hx'
            subst hx'
            exact absurd ((hw.node_wf g1 n1 h1b).mem_lt _ hx) (by omega)
        · rw [if_neg hg2] at h2b
          exact hw.disj g1 g2 n1 n2 h12 h1b h2b x hx
    · intro e he
      exact hw.pq_shape e he
    · intro g m hm hev
      have hm2 : getN (s.node_store.set f
          (some { n with history :=
            (if n.history.length = s.k then n.history.tail else n.history) ++
              [s.current_timestamp] })) g = some m := hm
      rw [nodeAt_update s _ hflt g] at hm2
      by_cases hgf : g = f
      · rw [if_pos hgf] at hm2
        injection hm2 with hm'
        subst hm'
        exact hw.ev_present f n hg hev
      · rw [if_neg hgf] at hm2
        exact hw.ev_present g m hm2 hev
    · intro g m hm hp
      have hm2 : getN (s.node_store.set f
          (some { n with history :=
            (if n.history.length = s.k then n.history.tail else n.history) ++
              [s.current_timestamp] })) g = some m := hm
      rw [nodeAt_update s _ hflt g] at hm2
      show Covers s.k s.pq g m
      by_cases hgf : g = f
      · rw [if_pos hgf] at hm2
        injection hm2 with hm'
        subst hm'
        subst hgf
        obtain ⟨e, he, hef, hadd, hkey⟩ := hw.covers g n hg hp
        exact ⟨e, he, hef, hadd, PQNode.keyLE_trans hkey (snap_key_mono hn)⟩
      · rw [if_neg hgf] at hm2
        exact hw.covers g m hm2 hp

theorem wf_setEvictable {s s' : LRUKReplacer} {f : Nat} {b : Bool} (hw : WF s)
    (h : s.setEvictable f b = .ok s') : WF s' := by
  unfold LRUKReplacer.setEvictable at h
  split at h
  · exact Except.noConfusion h
  next hle =>
  have hflt : f < s.node_store.length := by
    rw [hw.store_len]; omega
  split at h
  next hg => exact Except.noConfusion h
  next n hg =>
    by_cases hev : n.is_evictable = b
    · rw [if_pos hev] at h
      injection h with h'
      subst h'
      exact hw
    · rw [if_neg hev] at h
      have hn := hw.node_wf f n hg
      cases b with
      | true =>
        rw [if_pos rfl] at h
        injection h with h'
        subst h'
        have hmap : ∀ g m, getN (s.node_store.set f
            (some { n with is_evictable := true, present_in_pq := true })) g = some m →
            (g = f ∧ m = { n with is_evictable := true, present_in_pq := true }) ∨
            (¬ g = f ∧ getN s.node_store g = some m) := by
          intro g m hm
          rw [nodeAt_update s _ hflt g] at hm
          by_cases hgf : g = f
          · rw [if_pos hgf] at hm
            injection hm with hm'
            exact Or.inl ⟨hgf, hm'.symm⟩
          · rw [if_neg hgf] at hm
            exact Or.inr ⟨hgf, hm⟩
        refine ⟨?_, hw.k_pos, hw.ts_pos, ?_, ?_, ?_, ?_, ?_⟩
        · show (s.node_store.set f _).length = s.replacer_size
          rw [List.length_set]; exact hw.store_len
        · intro g m hm
          rcases hmap g m hm with ⟨hgf, rfl⟩ | ⟨hgf, hm2⟩
          · exact hn.congr rfl rfl
          · exact hw.node_wf g m hm2
        · intro g1 g2 n1 n2 h12 h1 h2 x hx
          rcases hmap g1 n1 h1 with ⟨hg1, rfl⟩ | ⟨hg1, h1b⟩ <;>
            rcases hmap g2 n2 h2 with ⟨hg2, rfl⟩ | ⟨hg2, h2b⟩
          · exact absurd (hg1.trans hg2.symm) h12
          · exact hw.disj f g2 n n2 (fun hh => hg2 hh.symm) hg h2b x hx
          · exact hw.disj g1 f n1 n hg1 h1b hg x hx
          · exact hw.disj g1 g2 n1 n2 h12 h1b h2b x hx
        · intro e he
          have he2 : e ∈ (if n.present_in_pq then s.pq
              else PQNode.snap f s.k n :: s.pq) := he
          by_cases hpres : n.present_in_pq
          · rw [if_pos hpres] at he2
            exact hw.pq_shape e he2
          · rw [if_neg hpres] at he2
            rcases List.mem_cons.1 he2 with rfl | he'
            · exact snap_shape f s.k n
            · exact hw.pq_shape e he'
        · intro g m hm hev2
          rcases hmap g m hm with ⟨hgf, rfl⟩ | ⟨hgf, hm2⟩
          · rfl
          · exact hw.ev_present g m hm2 hev2
        · intro g m hm hp
          show Covers s.k (if n.present_in_pq then s.pq
            else PQNode.snap f s.k n :: s.pq) g m
          rcases hmap g m hm with ⟨hgf, rfl⟩ | ⟨hgf, hm2⟩
          · subst hgf
            by_cases hpres : n.present_in_pq
            · rw [if_pos hpres]
              obtain ⟨e, he, hef, hadd, hkey⟩ := hw.covers g n hg hpres
              exact ⟨e, he, hef, hadd, hkey⟩
            · rw [if_neg hpres]
              refine ⟨PQNode.snap g s.k n, List.mem_cons_self _ _, rfl, ?_, ?_⟩
              · exact hn.head_ge
              · exact PQNode.keyLE_refl _
          · by_cases hpres : n.present_in_pq
            · rw [if_pos hpres]
              exact hw.covers g m hm2 hp
            · rw [if_neg hpres]
              obtain ⟨e, he, hef, hadd, hkey⟩ := hw.covers g m hm2 hp
              exact ⟨e, List.mem_cons_of_mem _ he, hef, hadd, hkey⟩
      | false =>
        rw [if_neg (by simp)] at h
        injection h with h'
        subst h'
        have hmap : ∀ g m, getN (s.node_store.set f
            (some { n with is_evictable := false })) g = some m →
            (g = f ∧ m = { n with is_evictable := false }) ∨
            (¬ g = f ∧ getN s.node_store g = some m) := by
          intro g m hm
          rw [nodeAt_update s _ hflt g] at hm
          by_cases hgf : g = f
          · rw [if_pos hgf] at hm
            injection hm with hm'
            exact Or.inl ⟨hgf, hm'.symm⟩
          · rw [if_neg hgf] at hm
            exact Or.inr ⟨hgf, hm⟩
        refine ⟨?_, hw.k_pos, hw.ts_pos, ?_, ?_, hw.pq_shape, ?_, ?_⟩
        · show (s.node_store.set f _).length = s.replacer_size
          rw [List.length_set]; exact hw.store_len
        · intro g m hm
          rcases hmap g m hm with ⟨hgf, rfl⟩ | ⟨hgf, hm2⟩
          · exact hn.congr rfl rfl
          · exact hw.node_wf g m hm2
        · intro g1 g2 n1 n2 h12 h1 h2 x hx
          rcases hmap g1 n1 h1 with ⟨hg1, rfl⟩ | ⟨hg1, h1b⟩ <;>
            rcases hmap g2 n2 h2 with ⟨hg2, rfl⟩ | ⟨hg2, h2b⟩
          · exact absurd (hg1.trans hg2.symm) h12
          · exact hw.disj f g2 n n2 (fun hh => hg2 hh.symm) hg h2b x hx
          · exact hw.disj g1 f n1 n hg1 h1b hg x hx
          · exact hw.disj g1 g2 n1 n2 h12 h1b h2b x hx
        · intro g m hm hev2
          rcases hmap g m hm with ⟨hgf, rfl⟩ | ⟨hgf, hm2⟩
          · exact Bool.noConfusion hev2
          · exact hw.ev_present g m hm2 hev2
        · intro g m hm hp
          show Covers s.k s.pq g m
          rcases hmap g m hm with ⟨hgf, rfl⟩ | ⟨hgf, hm2⟩
          · subst hgf
            obtain ⟨e, he, hef, hadd, hkey⟩ := hw.covers g n hg hp
            exact ⟨e, he, hef, hadd, hkey⟩
          · exact hw.covers g m hm2 hp

theorem wf_remove {s s' : LRUKReplacer} {f : Nat} (hw : WF s)
    (h : s.remove f = .ok s') : WF s' := by
  unfold LRUKReplacer.remove at h
  split at h
  · exact Except.noConfusion h
  next hle =>
  have hflt : f < s.node_store.length := by
    rw [hw.store_len]; omega
  split at h
  next hg => exact Except.noConfusion h
  next n hg =>
    by_cases hev : n.is_evictable = true
    · rw [if_pos hev] at h
      injection h with h'
      subst h'
      have hmap : ∀ g m, getN (s.node_store.set f none) g = some m →
          ¬ g = f ∧ getN s.node_store g = some m := by
        intro g m hm
        rw [nodeAt_update s _ hflt g] at hm
        by_cases hgf : g = f
        · rw [if_pos hgf] at hm
          exact Option.noConfusion hm
        · rw [if_neg hgf] at hm
          exact ⟨hgf, hm⟩
      refine ⟨?_, hw.k_pos, hw.ts_pos, ?_, ?_, hw.pq_shape, ?_, ?_⟩
      · show (s.node_store.set f none).length = s.replacer_size
        rw [List.length_set]; exact hw.store_len
      · intro g m hm
        exact hw.node_wf g m (hmap g m hm).2
      · intro g1 g2 n1 n2 h12 h1 h2 x hx
        exact hw.disj g1 g2 n1 n2 h12 (hmap g1 n1 h1).2 (hmap g2 n2 h2).2 x hx
      · intro g m hm hev2
        exact hw.ev_present g m (hmap g m hm).2 hev2
      · intro g m hm hp
        show Covers s.k s.pq g m
        exact hw.covers g m (hmap g m hm).2 hp
    · rw [if_neg hev] at h
      exact Except.noConfusion h

theorem evict_fst (s : LRUKReplacer) :
    (s.evict).1 = (evictLoop s.k s.node_store s.pq).1 := by
  unfold LRUKReplacer.evict
  rcases h : evictLoop s.k s.node_store s.pq with ⟨res, store', pq'⟩
  cases res <;> rfl

theorem evict_store (s : LRUKReplacer) :
    (s.evict).2.node_store = (evictLoop s.k s.node_store s.pq).2.1 := by
  unfold LRUKReplacer.evict
  rcases h : evictLoop s.k s.node_store s.pq with ⟨res, store', pq'⟩
  cases res <;> rfl

theorem evict_pq (s : LRUKReplacer) :
    (s.evict).2.pq = (evictLoop s.k s.node_store s.pq).2.2 := by
  unfold LRUKReplacer.evict
  rcases h : evictLoop s.k s.node_store s.pq with ⟨res, store', pq'⟩
  cases res <;> rfl

theorem evict_fields (s : LRUKReplacer) :
    (s.evict).2.replacer_size = s.replacer_size ∧
    (s.evict).2.current_timestamp = s.current_timestamp ∧
    (s.evict).2.k = s.k := by
  unfold LRUKReplacer.evict
  rcases h : evictLoop s.k s.node_store s.pq with ⟨res, store', pq'⟩
  cases res <;> exact ⟨rfl, rfl, rfl⟩

theorem wf_evict {s : LRUKReplacer} (hw : WF s) : WF (s.evict).2 := by
  have hloop := evictLoop_spec s.k s.node_store s.pq hw.toLoopWF
  constructor
  · rw [evict_store s, hloop.len, (evict_fields s).1]
    exact hw.store_len
  · rw [(evict_fields s).2.2]
    exact hw.k_pos
  · rw [(evict_fields s).2.1]
    exact hw.ts_pos
  · intro g m hm
    have hm2 : getN (s.evict).2.node_store g = some m := hm
    rw [evict_store s] at hm2
    obtain ⟨n, hn, hh, ht, -⟩ := hloop.nodes g m hm2
    rw [(evict_fields s).2.2, (evict_fields s).2.1]
    exact (hw.node_wf g n hn).congr hh ht
  · intro g1 g2 n1 n2 h12 h1 h2 x hx
    have h1b : getN (s.evict).2.node_store g1 = some n1 := h1
    have h2b : getN (s.evict).2.node_store g2 = some n2 := h2
    rw [evict_store s] at h1b h2b
    obtain ⟨m1, hm1, hh1, -, -⟩ := hloop.nodes g1 n1 h1b
    obtain ⟨m2, hm2, hh2, -, -⟩ := hloop.nodes g2 n2 h2b
    rw [hh2]
    rw [hh1] at hx
    exact hw.disj g1 g2 m1 m2 h12 hm1 hm2 x hx
  · intro e he
    rw [evict_pq s] at he
    rcases hloop.entries e he with he' | ⟨g, n, hn, rfl⟩
    · exact hw.pq_shape e he'
    · exact snap_shape g s.k n
  · intro g m hm hev2
    have hm2 : getN (s.evict).2.node_store g = some m := hm
    rw [evict_store s] at hm2
    exact hloop.post_ev g m hm2 hev2
  · intro g m hm hp
    have hm2 : getN (s.evict).2.node_store g = some m := hm
    rw [evict_store s] at hm2
    rw [evict_pq s, (evict_fields s).2.2]
    exact hloop.post_cov g m hm2 hp

/-- States of the replacer reachable by a sequence of operations from a
freshly constructed replacer; the construction configuration requires
replacer_k to be at least 1 (spec section 6). -/
inductive Reach : LRUKReplacer → Prop where
  | init (num_frames k : Nat) (hk : 1 ≤ k) : Reach (LRUKReplacer.init num_frames k)
  | record {s s' : LRUKReplacer} (f : Nat) : Reach s →
      s.recordAccess f = .ok s' → Reach s'
  | set_ev {s s' : LRUKReplacer} (f : Nat) (b : Bool) : Reach s →
      s.setEvictable f b = .ok s' → Reach s'
  | rem {s s' : LRUKReplacer} (f : Nat) : Reach s →
      s.remove f = .ok s' → Reach s'
  | evict_step {s : LRUKReplacer} : Reach s → Reach (s.evict).2

theorem reach_wf {s : LRUKReplacer} (h : Reach s) : WF s := by
  induction h with
  | init num_frames k hk => exact wf_init num_frames k hk
  | record f hr hok ih => exact wf_recordAccess ih hok
  | set_ev f b hr hok ih => exact wf_setEvictable ih hok
  | rem f hr hok ih => exact wf_remove ih hok
  | evict_step hr ih => exact wf_evict ih

/-- A frame is evictable in the replacer when its node exists with the
is_evictable flag set. -/
def LRUKReplacer.evictableAt (s : LRUKReplacer) (f : Nat) : Prop :=
  ∃ n, s.nodeAt f = some n ∧ n.is_evictable = true

/-- Key of a frame's node used by the victim-selection rule: the pair of
its k-th-last timestamp (0, i.e. TIMESTAMP_NEG_INF, when the frame has
fewer than k recorded accesses, representing backward K-distance plus
infinity) and its earliest recorded timestamp. -/
def LRUKReplacer.keyAt (s : LRUKReplacer) (f : Nat) : Nat × Nat :=
  match s.nodeAt f with
  | some n => ((PQNode.snap f s.k n).kth_last_timestamp,
               (PQNode.snap f s.k n).earliest_timestamp)
  | none => (0, 0)

/-- Strict lexicographic order on selection keys: a strictly smaller
k-th-last timestamp means a strictly larger backward K-distance, with ties
broken by the smaller earliest timestamp. -/
def keyLT (a b : Nat × Nat) : Prop :=
  a.1 < b.1 ∨ (a.1 = b.1 ∧ a.2 < b.2)

theorem keyLT_mk {a b c d : Nat} :
    keyLT (a, b) (c, d) ↔ (a < c ∨ (a = c ∧ b < d)) := Iff.rfl

theorem keyAt_of_some {s : LRUKReplacer} {f : Nat} {n : LRUKNode}
    (h : s.nodeAt f = some n) :
    s.keyAt f = ((PQNode.snap f s.k n).kth_last_timestamp,
      (PQNode.snap f s.k n).earliest_timestamp) := by
  unfold LRUKReplacer.keyAt
  rw [h]

/-- Node of a one-frame replacer after a single access at timestamp 1. -/
def exampleNodeA : LRUKNode :=
  { history := [1], timestamp_added := 1, is_evictable := false, present_in_pq := true }

/-- The same node after SetEvictable(0, true). -/
def exampleNodeB : LRUKNode :=
  { history := [1], timestamp_added := 1, is_evictable := true, present_in_pq := true }

/-- State of a one-frame replacer with k = 1 after a single
RecordAccess(0) on a fresh replacer. -/
def exampleStateA : LRUKReplacer :=
  { replacer_size := 1
    node_store := [some exampleNodeA]
    pq := [{ frame_id := 0, kth_last_timestamp := 1, earliest_timestamp := 1 }]
    current_timestamp := 2
    k := 1
    num_evictable := 0 }

/-- State after additionally calling SetEvictable(0, true). -/
def exampleStateB : LRUKReplacer :=
  { replacer_size := 1
    node_store := [some exampleNodeB]
    pq := [{ frame_id := 0, kth_last_timestamp := 1, earliest_timestamp := 1 }]
    current_timestamp := 2
    k := 1
    num_evictable := 1 }

/-- State after additionally calling Remove(0): the node is gone but
num_evictable_ is still 1, because Remove does not decrement it. -/
def exampleStateC : LRUKReplacer :=
  { replacer_size := 1
    node_store := [none]
    pq := [{ frame_id := 0, kth_last_timestamp := 1, earliest_timestamp := 1 }]
    current_timestamp := 2
    k := 1
    num_evictable := 1 }

theorem reach_exampleStateB : Reach exampleStateB :=
  @Reach.set_ev exampleStateA exampleStateB 0 true
    (@Reach.record (LRUKReplacer.init 1 1) exampleStateA 0
      (Reach.init 1 1 (Nat.le_refl 1)) (by rfl)) (by rfl)

theorem reach_exampleStateC : Reach exampleStateC :=
  @Reach.rem exampleStateB exampleStateC 0 reach_exampleStateB (by rfl)

/-- C1: at every reachable replacer state, a successful evict returns an
evictable frame whose (k-th-last timestamp, earliest timestamp) key is
strictly smallest among all evictable frames, i.e. the evictable frame
with the largest backward K-distance: frames with fewer than k recorded
accesses carry k-th-last timestamp 0 (the TIMESTAMP_NEG_INF encoding of
distance plus infinity) and so beat frames with k accesses, and ties among
infinite-distance frames go to the smallest earliest timestamp; when no
evictable frame exists, evict returns none. -/
theorem lruk_evict_returns_max_backward_k_distance (s : LRUKReplacer)
    (hs : Reach s) :
    (∀ f, (s.evict).1 = some f → s.evictableAt f ∧
      ∀ g, s.evictableAt g → g ≠ f → keyLT (s.keyAt f) (s.keyAt g)) ∧
    ((s.evict).1 = none → ∀ f, ¬ s.evictableAt f) := by
  have hw := reach_wf hs
  have hloop := evictLoop_spec s.k s.node_store s.pq hw.toLoopWF
  constructor
  · intro f hf
    rw [evict_fst s] at hf
    obtain ⟨n, hn, hnev, hmin⟩ := hloop.success f hf
    refine ⟨⟨n, hn, hnev⟩, ?_⟩
    intro g hg hgf
    obtain ⟨m, hm, hmev⟩ := hg
    have hk := hmin g m hm hmev
    have hne : n.history.headD 0 ≠ m.history.headD 0 :=
      hw.toLoopWF.heads_ne f g n m (fun hh => hgf hh.symm) hn hm
    rw [keyAt_of_some hn, keyAt_of_some hm, keyLT_mk]
    unfold PQNode.keyLE at hk
    have h1 : (PQNode.snap f s.k n).earliest_timestamp = n.history.headD 0 := rfl
    have h2 : (PQNode.snap g s.k m).earliest_timestamp = m.history.headD 0 := rfl
    rcases hk with hlt | ⟨heq, hle⟩
    · exact Or.inl hlt
    · refine Or.inr ⟨heq, ?_⟩
      have hne2 : (PQNode.snap f s.k n).earliest_timestamp ≠
          (PQNode.snap g s.k m).earliest_timestamp := by
        rw [h1, h2]; exact hne
      omega
  · intro hf f hfE
    obtain ⟨n, hn, hev⟩ := hfE
    rw [evict_fst s] at hf
    have hne2 := hloop.failure hf f n hn
    rw [hev] at hne2
    exact Bool.noConfusion hne2

theorem lruk_evict_returns_max_backward_k_distance_witness :
    (∀ f, (exampleStateB.evict).1 = some f → exampleStateB.evictableAt f ∧
      ∀ g, exampleStateB.evictableAt g → g ≠ f →
        keyLT (exampleStateB.keyAt f) (exampleStateB.keyAt g)) ∧
    ((exampleStateB.evict).1 = none → ∀ f, ¬ exampleStateB.evictableAt f) :=
  lruk_evict_returns_max_backward_k_distance exampleStateB reach_exampleStateB

/-- C2 (code bug): the replacer reaches a state (record_access 0;
set_evictable 0 true; remove 0 on a one-frame replacer with k = 1) where
size() returns 1 although no frame has a node at all, because Remove drops
an evictable node without decrementing num_evictable_ — contradicting the
header's documentation of Remove ("This function should also decrement
replacer's size if removal is successful", lru_k_replacer.h lines
134-135). -/
theorem lruk_remove_breaks_size_invariant :
    Reach exampleStateC ∧ exampleStateC.size = 1 ∧
      ∀ f, exampleStateC.nodeAt f = none := by
  refine ⟨reach_exampleStateC, rfl, ?_⟩
  intro f
  cases f with
  | zero => rfl
  | succ f => exact getN_nil f

/-- C9 counterexample: in the same reachable state, size() is positive yet
evict returns no victim, refuting the claim that evict succeeds whenever
size() is positive. -/
theorem lruk_size_positive_evict_none :
    Reach exampleStateC ∧ 0 < exampleStateC.size ∧
      (exampleStateC.evict).1 = none := by
  refine ⟨reach_exampleStateC, Nat.zero_lt_one, ?_⟩
  have h1 : evictLoop 1 [none]
      [{ frame_id := 0, kth_last_timestamp := 1, earliest_timestamp := 1 }] =
      evictLoop 1 [none] [] :=
    evictLoop_absent rfl rfl
  have h2 : evictLoop 1 ([none] : List (Option LRUKNode)) [] =
      (none, [none], []) :=
    evictLoop_empty rfl
  have h3 : evictLoop exampleStateC.k exampleStateC.node_store exampleStateC.pq =
      (none, [none], []) := h1.trans h2
  rw [evict_fst exampleStateC, h3]

/-- C9 (amended): at every reachable state every evictable node is covered
by a same-incarnation heap entry whose key lower-bounds the node's current
snapshot key, and evict() returns None exactly when no evictable frame
exists — so it succeeds whenever an evictable frame exists; size() however
may overcount after Remove, so positivity of size() alone does not
guarantee success. -/
theorem lruk_evict_none_iff_no_evictable (s : LRUKReplacer) (hs : Reach s) :
    (∀ f n, s.nodeAt f = some n → n.is_evictable = true →
      ∃ e ∈ s.pq, e.frame_id = f ∧ n.timestamp_added ≤ e.earliest_timestamp ∧
        e.keyLE (PQNode.snap f s.k n)) ∧
    ((s.evict).1 = none ↔ ∀ f, ¬ s.evictableAt f) := by
  have hw := reach_wf hs
  have hloop := evictLoop_spec s.k s.node_store s.pq hw.toLoopWF
  constructor
  · intro f n hn hev
    exact hw.covers f n hn (hw.ev_present f n hn hev)
  · constructor
    · intro hnone f hf
      obtain ⟨n, hn, hev⟩ := hf
      rw [evict_fst s] at hnone
      have hne := hloop.failure hnone f n hn
      rw [hev] at hne
      exact Bool.noConfusion hne
    · intro hno
      cases hres : (s.evict).1 with
      | none => rfl
      | some f =>
        exfalso
        rw [evict_fst s] at hres
        obtain ⟨n, hn, hnev, -⟩ := hloop.success f hres
        exact hno f ⟨n, hn, hnev⟩

theorem lruk_evict_none_iff_no_evictable_witness :
    (∀ f n, (LRUKReplacer.init 2 2).nodeAt f = some n → n.is_evictable = true →
      ∃ e ∈ (LRUKReplacer.init 2 2).pq, e.frame_id = f ∧
        n.timestamp_added ≤ e.earliest_timestamp ∧
        e.keyLE (PQNode.snap f (LRUKReplacer.init 2 2).k n)) ∧
    (((LRUKReplacer.init 2 2).evict).1 = none ↔
      ∀ f, ¬ (LRUKReplacer.init 2 2).evictableAt f) :=
  lruk_evict_none_iff_no_evictable (LRUKReplacer.init 2 2)
    (Reach.init 2 2 (by decide))

/-- C7 counterexample: on a freshly constructed replacer with one frame,
frame id 0 is in range and has no node, yet SetEvictable throws instead of
being a no-op — contradicting the claim that it fails only on an
out-of-range frame id. -/
theorem lruk_set_evictable_absent_node_throws :
    0 < (LRUKReplacer.init 1 1).replacer_size ∧
    (LRUKReplacer.init 1 1).nodeAt 0 = none ∧
    (LRUKReplacer.init 1 1).setEvictable 0 true = .error "Invalid frame_id" :=
  ⟨Nat.zero_lt_one, rfl, rfl⟩

/-- C7 (amended): for an in-range frame id whose node exists,
SetEvictable(f, b) is a no-op exactly when the requested state already
matches the node's state; it fails precisely on an out-of-range frame id
or when no node exists for the frame. -/
theorem lruk_set_evictable_noop_spec (s : LRUKReplacer) (f : Nat) (b : Bool) :
    (∀ n, f < s.replacer_size → s.nodeAt f = some n → n.is_evictable = b →
      s.setEvictable f b = .ok s) ∧
    ((∃ s', s.setEvictable f b = .ok s') ↔
      (f < s.replacer_size ∧ ∃ n, s.nodeAt f = some n)) := by
  constructor
  · intro n hlt hn hev
    have hn2 : getN s.node_store f = some n := hn
    unfold LRUKReplacer.setEvictable
    rw [if_neg (by omega : ¬ s.replacer_size ≤ f)]
    simp only [hn2]
    rw [if_pos hev]
  · constructor
    · rintro ⟨s', hs'⟩
      unfold LRUKReplacer.setEvictable at hs'
      by_cases hle : s.replacer_size ≤ f
      · rw [if_pos hle] at hs'
        exact Except.noConfusion hs'
      · rw [if_neg hle] at hs'
        refine ⟨by omega, ?_⟩
        cases hgg : getN s.node_store f with
        | none =>
          rw [hgg] at hs'
          exact Except.noConfusion hs'
        | some n => exact ⟨n, hgg⟩
    · rintro ⟨hlt, n, hn⟩
      have hn2 : getN s.node_store f = some n := hn
      unfold LRUKReplacer.setEvictable
      rw [if_neg (by omega : ¬ s.replacer_size ≤ f)]
      simp only [hn2]
      by_cases hev : n.is_evictable = b
      · rw [if_pos hev]; exact ⟨s, rfl⟩
      · rw [if_neg hev]
        cases b
        · exact ⟨_, rfl⟩
        · exact ⟨_, rfl⟩

theorem lruk_set_evictable_noop_spec_witness :
    exampleStateB.setEvictable 0 true = .ok exampleStateB ∧
    (∃ s', exampleStateB.setEvictable 0 true = .ok s') :=
  ⟨(lruk_set_evictable_noop_spec exampleStateB 0 true).1 exampleNodeB
      (by decide) (by rfl) (by rfl),
   ((lruk_set_evictable_noop_spec exampleStateB 0 true).2).mpr
     ⟨by decide, exampleNodeB, by rfl⟩⟩

theorem getd_set_self {α : Type} {l : List α} {i : Nat} (v d : α)
    (h : i < l.length) : (l.set i v).getD i d = v := by
  induction l generalizing i with
  | nil => simp at h
  | cons x xs ih =>
    cases i with
    | zero => rfl
    | succ i =>
      simp only [List.set_cons_succ]
      show (xs.set i v).getD i d = v
      exact ih (by simpa using h)

theorem getd_set_ne {α : Type} {l : List α} {i j : Nat} (v d : α) (h : i ≠ j) :
    (l.set i v).getD j d = l.getD j d := by
  induction l generalizing i j with
  | nil => cases i <;> rfl
  | cons x xs ih =>
    cases i with
    | zero =>
      cases j with
      | zero => exact absurd rfl h
      | succ j => rfl
    | succ i =>
      cases j with
      | zero => rfl
      | succ j =>
        simp only [List.set_cons_succ]
        show (xs.set i v).getD j d = xs.getD j d
        exact ih (fun hh => h (by omega))

theorem getd_eq_default {α : Type} {l : List α} {i : Nat} (d : α)
    (h : l.length ≤ i) : l.getD i d = d := by
  induction l generalizing i with
  | nil => cases i <;> rfl
  | cons x xs ih =>
    cases i with
    | zero => simp at h
    | succ i =>
      show xs.getD i d = d
      exact ih (by simpa using h)

theorem lookup_cons_self {β : Type} (k : Int) (v : β) (t : List (Int × β)) :
    ((k, v) :: t).lookup k = some v := by
  simp [List.lookup]

theorem lookup_cons_ne {β : Type} {k pid : Int} (v : β) (t : List (Int × β))
    (h : k ≠ pid) : ((k, v) :: t).lookup pid = t.lookup pid := by
  simp [List.lookup, beq_eq_false_iff_ne.mpr (Ne.symm h)]

theorem lookup_eq_none_of_forall_ne {β : Type} {pt : List (Int × β)} {pid : Int}
    (h : ∀ e ∈ pt, e.1 ≠ pid) : pt.lookup pid = none := by
  induction pt with
  | nil => rfl
  | cons a t ih =>
    obtain ⟨k, v⟩ := a
    rw [lookup_cons_ne v t (h (k, v) (List.mem_cons_self _ _))]
    exact ih (fun e he => h e (List.mem_cons_of_mem _ he))

theorem lookup_eraseP_none {β : Type} {pt : List (Int × β)} {pid : Int}
    (hnd : (pt.map Prod.fst).Nodup) :
    (pt.eraseP (fun e => e.1 == pid)).lookup pid = none := by
  induction pt with
  | nil => rfl
  | cons a t ih =>
    obtain ⟨k, v⟩ := a
    simp only [List.map_cons, List.nodup_cons] at hnd
    by_cases hk : k = pid
    · rw [List.eraseP_cons_of_pos (by simpa using hk)]
      apply lookup_eq_none_of_forall_ne
      intro e he hme
      apply hnd.1
      rw [hk, ← hme]
      exact List.mem_map_of_mem _ he
    · rw [List.eraseP_cons_of_neg (by simpa using hk)]
      rw [lookup_cons_ne v _ hk]
      exact ih hnd.2

/-- Modelled from the spec: the Page class of the storage layer
(src/include/storage/page/page.h is not under src/).  Per spec section 3 a
frame holds the resident logical page id (the sentinel -1, INVALID_PAGE_ID,
meaning unassigned), a non-negative pin count, a dirty flag and a
fixed-size raw data buffer; the buffer is abstracted to a single token and
ResetMemory writes the zero token. -/
structure Page where
  page_id : Int := -1
  pin_count : Nat := 0
  is_dirty : Bool := false
  data : Nat := 0
deriving DecidableEq

instance : Inhabited Page := ⟨{}⟩

/-- A disk request as observed completed by the disk manager: the
is_write_ flag and page_id_ fields of DiskRequest (the data pointer is
dropped from the model). -/
structure DiskOp where
  is_write : Bool
  page_id : Int
deriving DecidableEq

/-- Data members of BufferPoolManager
(src/include/buffer/buffer_pool_manager.h is not under src/; the members
are modelled from the spec and from their uses in
src/buffer/buffer_pool_manager.cpp): the frame array pages_ (always
pool_size entries, allocated in the constructor), the page table, the
free list, the replacer and the next_page_id_ allocator.  The trace field
records the disk requests whose completion the pool has observed (the
code blocks on the future immediately after scheduling each one), in
order; the deallocated field is modelled from the spec ("deallocates the
page id") since DeallocatePage's body is not under src/. -/
structure BufferPoolManager where
  pool_size : Nat
  pages : List Page
  page_table : List (Int × Nat)
  free_list : List Nat
  replacer : LRUKReplacer
  next_page_id : Int := 0
  deallocated : List Int := []
  trace : List DiskOp := []
deriving DecidableEq

/-- Constructor BufferPoolManager(pool_size, disk_manager, replacer_k)
(buffer_pool_manager.cpp lines 25-36): default-constructed frames, an
LRU-K replacer over pool_size frames, every frame initially in the free
list in index order. -/
def BufferPoolManager.init (pool_size replacer_k : Nat) : BufferPoolManager :=
  { pool_size := pool_size
    pages := List.replicate pool_size {}
    page_table := []
    free_list := List.range pool_size
    replacer := LRUKReplacer.init pool_size replacer_k }

/-- Member function BufferPoolManager::FlushPage(Page&)
(buffer_pool_manager.cpp lines 197-210): schedule a write of the frame's
page, block on the completion future, then clear the dirty bit. -/
def BufferPoolManager.flushFrame (s : BufferPoolManager) (f : Nat) :
    BufferPoolManager :=
  { s with
      trace := s.trace ++
        [{ is_write := true, page_id := (s.pages.getD f default).page_id }]
      pages := s.pages.set f { s.pages.getD f default with is_dirty := false } }

/-- Member function BufferPoolManager::FindFreeFrame (buffer_pool_manager.cpp
lines 40-64): pop the free list front when available; otherwise ask the
replacer to evict, flush the victim frame first when it is dirty, and
erase the victim's resident page id from the page table. -/
def BufferPoolManager.findFreeFrame (s : BufferPoolManager) :
    Option Nat × BufferPoolManager :=
  match s.free_list with
  | f :: rest => (some f, { s with free_list := rest })
  | [] =>
    match s.replacer.evict with
    | (some v, r') =>
      let s1 := { s with replacer := r' }
      let p := s1.pages.getD v default
      let s2 := if p.is_dirty then s1.flushFrame v else s1
      (some v, { s2 with
        page_table := s2.page_table.eraseP (fun e => e.1 == p.page_id) })
    | (none, r') => (none, { s with replacer := r' })

/-- Member function BufferPoolManager::NewPage (buffer_pool_manager.cpp
lines 66-87): reserve a frame, allocate the next page id, insert the
mapping, record the access and pin the frame in the replacer, then set
the frame's metadata with the pin count incremented.  The out-parameter
page id is returned together with the frame id. -/
def BufferPoolManager.newPage (s : BufferPoolManager) :
    Except String (Option (Int × Nat) × BufferPoolManager) :=
  match s.findFreeFrame with
  | (none, s1) => .ok (none, s1)
  | (some f, s1) =>
    match s1.replacer.recordAccess f with
    | .error e => .error e
    | .ok r1 =>
      match r1.setEvictable f false with
      | .error e => .error e
      | .ok r2 =>
        .ok (some (s1.next_page_id, f),
          { s1 with
              next_page_id := s1.next_page_id + 1
              page_table := (s1.next_page_id, f) :: s1.page_table
              replacer := r2
              pages := s1.pages.set f
                { s1.pages.getD f default with
                    page_id := s1.next_page_id
                    is_dirty := false
                    pin_count := (s1.pages.getD f default).pin_count + 1 } })

/-- Member function BufferPoolManager::UnpinPage (buffer_pool_manager.cpp
lines 157-180): false when the page is not resident or its pin count is
already zero; otherwise OR the dirty flag, decrement the pin count and,
exactly when it reaches zero, mark the frame evictable. -/
def BufferPoolManager.unpinPage (s : BufferPoolManager) (pid : Int)
    (is_dirty : Bool) : Except String (Bool × BufferPoolManager) :=
  match s.page_table.lookup pid with
  | none => .ok (false, s)
  | some f =>
    if (s.pages.getD f default).pin_count = 0 then .ok (false, s)
    else
      if (s.pages.getD f default).pin_count - 1 = 0 then
        match s.replacer.setEvictable f true with
        | .error e => .error e
        | .ok r =>
          .ok (true, { s with
              pages := s.pages.set f
                { s.pages.getD f default with
                    is_dirty := (s.pages.getD f default).is_dirty || is_dirty
                    pin_count := (s.pages.getD f default).pin_count - 1 }
              replacer := r })
      else
        .ok (true, { s with
            pages := s.pages.set f
              { s.pages.getD f default with
                  is_dirty := (s.pages.getD f default).is_dirty || is_dirty
                  pin_count := (s.pages.getD f default).pin_count - 1 } })

/-- Member function BufferPoolManager::FlushPage(page_id)
(buffer_pool_manager.cpp lines 182-195). -/
def BufferPoolManager.flushPage (s : BufferPoolManager) (pid : Int) :
    Bool × BufferPoolManager :=
  match s.page_table.lookup pid with
  | none => (false, s)
  | some f => (true, s.flushFrame f)

/-- Member function BufferPoolManager::FlushAllPages (buffer_pool_manager.cpp
lines 212-234): holding every frame latch, schedule a write for every
frame slot in index order — resident or not — then wait on every
completion and clear every dirty bit. -/
def BufferPoolManager.flushAllPages (s : BufferPoolManager) :
    BufferPoolManager :=
  { s with
      trace := s.trace ++
        s.pages.map (fun p => { is_write := true, page_id := p.page_id })
      pages := s.pages.map (fun p => { p with is_dirty := false }) }

/-- Member function BufferPoolManager::DeletePage (buffer_pool_manager.cpp
lines 236-265): vacuous success when the page is not resident (also after
the double-checked identity test fails); false when pinned; otherwise
erase the page-table entry, remove the frame from the replacer, return
the frame to the free list, wipe the frame memory (ResetMemory touches
only the data buffer) and deallocate the page id. -/
def BufferPoolManager.deletePage (s : BufferPoolManager) (pid : Int) :
    Except String (Bool × BufferPoolManager) :=
  match s.page_table.lookup pid with
  | none => .ok (true, s)
  | some f =>
    if (s.pages.getD f default).page_id ≠ pid then .ok (true, s)
    else if 0 < (s.pages.getD f default).pin_count then .ok (false, s)
    else
      match s.replacer.remove f with
      | .error e => .error e
      | .ok r =>
        .ok (true,
          { s with
              page_table := s.page_table.eraseP (fun e => e.1 == pid)
              replacer := r
              free_list := s.free_list ++ [f]
              pages := s.pages.set f { s.pages.getD f default with data := 0 }
              deallocated := s.deallocated ++ [pid] })

theorem findFreeFrame_free {s : BufferPoolManager} {f : Nat} {rest : List Nat}
    (hfl : s.free_list = f :: rest) :
    s.findFreeFrame = (some f, { s with free_list := rest }) := by
  unfold BufferPoolManager.findFreeFrame
  rw [hfl]

theorem findFreeFrame_none {s : BufferPoolManager}
    (hfl : s.free_list = []) (hev : (s.replacer.evict).1 = none) :
    s.findFreeFrame = (none, { s with replacer := (s.replacer.evict).2 }) := by
  unfold BufferPoolManager.findFreeFrame
  rw [hfl]
  rcases hE : s.replacer.evict with ⟨res, r'⟩
  rw [hE] at hev
  cases res with
  | some v => exact absurd hev (by simp)
  | none => rfl

theorem findFreeFrame_victim_clean {s : BufferPoolManager} {v : Nat}
    (hfl : s.free_list = []) (hev : (s.replacer.evict).1 = some v)
    (hd : (s.pages.getD v default).is_dirty = false) :
    s.findFreeFrame = (some v,
      { s with
          replacer := (s.replacer.evict).2
          page_table := s.page_table.eraseP
            (fun e => e.1 == (s.pages.getD v default).page_id) }) := by
  unfold BufferPoolManager.findFreeFrame
  rw [hfl]
  rcases hE : s.replacer.evict with ⟨res, r'⟩
  rw [hE] at hev
  cases res with
  | none => exact absurd hev (by simp)
  | some v2 =>
    have hv : v2 = v := by
      have hev2 : some v2 = some v := hev
      injection hev2
    subst hv
    have hd2 : ((({ s with replacer := r' } :
        BufferPoolManager)).pages.getD v2 default).is_dirty = false := hd
    dsimp only
    rw [if_neg (by rw [hd2]; exact Bool.false_ne_true)]

theorem findFreeFrame_victim_dirty {s : BufferPoolManager} {v : Nat}
    (hfl : s.free_list = []) (hev : (s.replacer.evict).1 = some v)
    (hd : (s.pages.getD v default).is_dirty = true) :
    s.findFreeFrame = (some v,
      { s with
          replacer := (s.replacer.evict).2
          trace := s.trace ++
            [{ is_write := true, page_id := (s.pages.getD v default).page_id }]
          pages := s.pages.set v { s.pages.getD v default with is_dirty := false }
          page_table := s.page_table.eraseP
            (fun e => e.1 == (s.pages.getD v default).page_id) }) := by
  unfold BufferPoolManager.findFreeFrame
  rw [hfl]
  rcases hE : s.replacer.evict with ⟨res, r'⟩
  rw [hE] at hev
  cases res with
  | none => exact absurd hev (by simp)
  | some v2 =>
    have hv : v2 = v := by
      have hev2 : some v2 = some v := hev
      injection hev2
    subst hv
    have hd2 : ((({ s with replacer := r' } :
        BufferPoolManager)).pages.getD v2 default).is_dirty = true := hd
    dsimp only
    rw [if_pos hd2]
    rfl

/-- C3: frame reservation pops the free-list front when the free list is
non-empty; otherwise it asks the replacer for a victim; with no victim it
returns none; with a victim whose frame is dirty, a disk write bearing the
victim's page id is issued and completed (appearing at the end of the
observed I/O trace) and the victim frame's dirty bit is cleared, before
the victim's page id is no longer found in the page table; hence a dirty
frame is never dropped from the pool without a completed write. -/
theorem bpm_find_free_frame_spec (s : BufferPoolManager)
    (hnd : (s.page_table.map Prod.fst).Nodup) :
    (∀ f rest, s.free_list = f :: rest →
      s.findFreeFrame = (some f, { s with free_list := rest })) ∧
    (s.free_list = [] → (s.replacer.evict).1 = none →
      s.findFreeFrame = (none, { s with replacer := (s.replacer.evict).2 })) ∧
    (∀ v, s.free_list = [] → (s.replacer.evict).1 = some v →
      ∃ s', s.findFreeFrame = (some v, s') ∧
        s'.free_list = [] ∧
        s'.page_table.lookup (s.pages.getD v default).page_id = none ∧
        ((s.pages.getD v default).is_dirty = true →
          s'.trace = s.trace ++
            [{ is_write := true, page_id := (s.pages.getD v default).page_id }] ∧
          (s'.pages.getD v default).is_dirty = false) ∧
        ((s.pages.getD v default).is_dirty = false →
          s'.trace = s.trace ∧ s'.pages = s.pages)) := by
  refine ⟨fun f rest hfl => findFreeFrame_free hfl,
    fun hfl hev => findFreeFrame_none hfl hev, ?_⟩
  intro v hfl hev
  cases hd : (s.pages.getD v default).is_dirty with
  | false =>
    refine ⟨_, findFreeFrame_victim_clean hfl hev hd, hfl,
      lookup_eraseP_none hnd, ?_, ?_⟩
    · intro hcon; exact Bool.noConfusion hcon
    · intro _; exact ⟨rfl, rfl⟩
  | true =>
    refine ⟨_, findFreeFrame_victim_dirty hfl hev hd, hfl,
      lookup_eraseP_none hnd, ?_, ?_⟩
    · intro _
      refine ⟨rfl, ?_⟩
      have hvlt : v < s.pages.length := by
        by_contra hge
        push_neg at hge
        rw [getd_eq_default _ hge] at hd
        exact Bool.noConfusion hd
      rw [getd_set_self _ _ hvlt]
    · intro hcon; exact Bool.noConfusion hcon

theorem bpm_find_free_frame_spec_witness :
    (BufferPoolManager.init 1 1).findFreeFrame =
      (some 0, { BufferPoolManager.init 1 1 with free_list := [] }) :=
  (bpm_find_free_frame_spec (BufferPoolManager.init 1 1) (by simp
    [BufferPoolManager.init])).1 0 [] (by rfl)

/-- Pool with a single resident dirty page, used as a concrete input of
several witnesses. -/
def examplePool : BufferPoolManager :=
  { pool_size := 1
    pages := [{ page_id := 7, pin_count := 0, is_dirty := true, data := 5 }]
    page_table := [(7, 0)]
    free_list := []
    replacer := exampleStateB
    next_page_id := 8 }

/-- C10: after FlushAllPages every frame's dirty flag is false — including
frames that were already clean or hold no resident page — and exactly one
write request per frame slot, in frame order and bearing the slot's
current page id, was issued and completed (appended to the observed I/O
trace). -/
theorem bpm_flush_all_pages_clears_dirty (s : BufferPoolManager) :
    (∀ p ∈ (s.flushAllPages).pages, p.is_dirty = false) ∧
    (s.flushAllPages).trace = s.trace ++
      s.pages.map (fun p => { is_write := true, page_id := p.page_id }) ∧
    (s.flushAllPages).pages.length = s.pages.length := by
  refine ⟨?_, rfl, by simp [BufferPoolManager.flushAllPages]⟩
  intro p hp
  unfold BufferPoolManager.flushAllPages at hp
  simp only [List.mem_map] at hp
  obtain ⟨q, hq, rfl⟩ := hp
  rfl

theorem bpm_flush_all_pages_clears_dirty_witness :
    ({ page_id := 7, pin_count := 0, is_dirty := false, data := 5 } : Page).is_dirty
      = false :=
  (bpm_flush_all_pages_clears_dirty examplePool).1 _ (by decide)

theorem evict_some_evictable {s : LRUKReplacer} (hw : WF s) {v : Nat}
    (h : (s.evict).1 = some v) :
    ∃ n, s.nodeAt v = some n ∧ n.is_evictable = true := by
  have hloop := evictLoop_spec s.k s.node_store s.pq hw.toLoopWF
  rw [evict_fst s] at h
  obtain ⟨n, hn, hnev, -⟩ := hloop.success v h
  exact ⟨n, hn, hnev⟩

theorem evict_none_no_evictable {s : LRUKReplacer} (hw : WF s)
    (h : (s.evict).1 = none) :
    ∀ f n, s.nodeAt f = some n → n.is_evictable = false := by
  have hloop := evictLoop_spec s.k s.node_store s.pq hw.toLoopWF
  rw [evict_fst s] at h
  exact hloop.failure h

theorem recordAccess_ok {s : LRUKReplacer} {f : Nat}
    (hlt : f < s.replacer_size) (hlen : f < s.node_store.length) :
    ∃ s', s.recordAccess f = .ok s' ∧ (∃ n, getN s'.node_store f = some n) ∧
      s'.replacer_size = s.replacer_size := by
  unfold LRUKReplacer.recordAccess
  rw [if_neg (by omega)]
  cases hg : getN s.node_store f with
  | none =>
    refine ⟨_, rfl, ⟨LRUKNode.create s.current_timestamp, ?_⟩, rfl⟩
    show getN (s.node_store.set f (some (LRUKNode.create s.current_timestamp))) f = _
    rw [getN_set_self _ hlen]
  | some n =>
    refine ⟨_, rfl, ⟨{ n with history :=
      (if n.history.length = s.k then n.history.tail else n.history) ++
        [s.current_timestamp] }, ?_⟩, rfl⟩
    show getN (s.node_store.set f (some _)) f = _
    rw [getN_set_self _ hlen]

theorem setEvictable_ok_of_node {s : LRUKReplacer} {f : Nat} {n : LRUKNode}
    (b : Bool) (hlt : f < s.replacer_size) (hn : getN s.node_store f = some n) :
    ∃ s', s.setEvictable f b = .ok s' := by
  unfold LRUKReplacer.setEvictable
  rw [if_neg (by omega)]
  simp only [hn]
  by_cases hev : n.is_evictable = b
  · rw [if_pos hev]; exact ⟨s, rfl⟩
  · rw [if_neg hev]
    cases b
    · exact ⟨_, rfl⟩
    · exact ⟨_, rfl⟩

theorem setEvictable_true_result {s s' : LRUKReplacer} {f : Nat}
    (hflt : f < s.node_store.length) (h : s.setEvictable f true = .ok s') :
    ∃ n', s'.nodeAt f = some n' ∧ n'.is_evictable = true := by
  unfold LRUKReplacer.setEvictable at h
  split at h
  · exact Except.noConfusion h
  next hle =>
  split at h
  next => exact Except.noConfusion h
  next n hg =>
    by_cases hev : n.is_evictable = true
    · rw [if_pos hev] at h
      injection h with h'
      subst h'
      exact ⟨n, hg, hev⟩
    · rw [if_neg hev] at h
      rw [if_pos rfl] at h
      injection h with h'
      subst h'
      refine ⟨{ n with is_evictable := true, present_in_pq := true }, ?_, rfl⟩
      show getN (s.node_store.set f _) f = _
      rw [getN_set_self _ hflt]

theorem remove_ok_of_evictable {s : LRUKReplacer} {f : Nat} {n : LRUKNode}
    (hlt : f < s.replacer_size) (hn : getN s.node_store f = some n)
    (hev : n.is_evictable = true) :
    ∃ r, s.remove f = .ok r ∧ getN r.node_store f = none ∧
      r.pq = s.pq ∧ r.num_evictable = s.num_evictable := by
  unfold LRUKReplacer.remove
  rw [if_neg (by omega)]
  simp only [hn]
  rw [if_pos hev]
  refine ⟨_, rfl, ?_, rfl, rfl⟩
  show getN (s.node_store.set f none) f = none
  rw [getN_set_self _ (getN_some_lt hn)]

theorem newPage_none {s s1 : BufferPoolManager}
    (hff : s.findFreeFrame = (none, s1)) : s.newPage = .ok (none, s1) := by
  unfold BufferPoolManager.newPage
  rw [hff]

theorem newPage_some {s s1 : BufferPoolManager} {f : Nat} {r1 r2 : LRUKReplacer}
    (hff : s.findFreeFrame = (some f, s1))
    (hrec : s1.replacer.recordAccess f = .ok r1)
    (hset : r1.setEvictable f false = .ok r2) :
    s.newPage = .ok (some (s1.next_page_id, f),
      { s1 with
          next_page_id := s1.next_page_id + 1
          page_table := (s1.next_page_id, f) :: s1.page_table
          replacer := r2
          pages := s1.pages.set f
            { s1.pages.getD f default with
                page_id := s1.next_page_id
                is_dirty := false
                pin_count := (s1.pages.getD f default).pin_count + 1 } }) := by
  unfold BufferPoolManager.newPage
  rw [hff]
  simp only [hrec, hset]

/-- C5: DeletePage returns true without changing state when the page is
not resident; returns false without changing state when it is resident
and pinned; and otherwise erases the page-table entry, removes the frame
from the replacer, wipes the frame's data, appends the frame to the free
list, records the deallocated page id, issues no disk request, and
returns true.  The hypotheses are the pool's invariants: unique page-table
keys, table entries naming frames that hold the key page (I1), unpinned
resident frames being evictable in the replacer (I3), and the replacer
sized to the frame array. -/
theorem bpm_delete_page_spec (s : BufferPoolManager) (pid : Int)
    (hnd : (s.page_table.map Prod.fst).Nodup)
    (hid : ∀ f, s.page_table.lookup pid = some f →
      (s.pages.getD f default).page_id = pid)
    (hszr : s.replacer.node_store.length ≤ s.replacer.replacer_size) :
    (s.page_table.lookup pid = none → s.deletePage pid = .ok (true, s)) ∧
    (∀ f, s.page_table.lookup pid = some f →
      0 < (s.pages.getD f default).pin_count →
      s.deletePage pid = .ok (false, s)) ∧
    (∀ f n, s.page_table.lookup pid = some f →
      (s.pages.getD f default).pin_count = 0 →
      s.replacer.nodeAt f = some n → n.is_evictable = true →
      ∃ s', s.deletePage pid = .ok (true, s') ∧
        s'.page_table.lookup pid = none ∧
        s'.replacer.nodeAt f = none ∧
        s'.free_list = s.free_list ++ [f] ∧
        (s'.pages.getD f default).data = 0 ∧
        s'.deallocated = s.deallocated ++ [pid] ∧
        s'.trace = s.trace) := by
  refine ⟨?_, ?_, ?_⟩
  · intro hl
    unfold BufferPoolManager.deletePage
    rw [hl]
  · intro f hl hpin
    have hpp := hid f hl
    unfold BufferPoolManager.deletePage
    simp only [hl]
    rw [if_neg (fun hcon => hcon hpp), if_pos hpin]
  · intro f n hl hpin hn hnev
    have hpp := hid f hl
    have hflt : f < s.replacer.node_store.length := getN_some_lt hn
    obtain ⟨r, hrem, hrnode, -, -⟩ :=
      remove_ok_of_evictable (by omega) hn hnev
    unfold BufferPoolManager.deletePage
    simp only [hl]
    rw [if_neg (fun hcon => hcon hpp), if_neg (by omega)]
    simp only [hrem]
    refine ⟨_, rfl, lookup_eraseP_none hnd, hrnode, rfl, ?_, rfl, rfl⟩
    by_cases hfp : f < s.pages.length
    · rw [getd_set_self _ _ hfp]
    · push_neg at hfp
      have hlen2 : (s.pages.set f
          { s.pages.getD f default with data := 0 }).length ≤ f := by
        rw [List.length_set]; omega
      rw [getd_eq_default _ hlen2]
      rfl

theorem bpm_delete_page_spec_witness :
    ∃ s', examplePool.deletePage 7 = .ok (true, s') ∧
      s'.page_table.lookup 7 = none ∧
      s'.replacer.nodeAt 0 = none ∧
      s'.free_list = examplePool.free_list ++ [0] ∧
      (s'.pages.getD 0 default).data = 0 ∧
      s'.deallocated = examplePool.deallocated ++ [7] ∧
      s'.trace = examplePool.trace :=
  (bpm_delete_page_spec examplePool 7 (by decide)
    (by
      intro f hf
      have h2 : some (0 : Nat) = some f := Eq.trans (by rfl) hf
      injection h2 with h3
      subst h3
      decide)
    (by decide)).2.2 0 exampleNodeB (by rfl) (by rfl) (by rfl) (by rfl)

/-- C6: UnpinPage returns false and leaves the state unchanged exactly
when the page is not resident or its frame's pin count is already zero;
otherwise it decrements the pin count, ORs the argument into the dirty
flag, marks the frame evictable in the replacer exactly when the pin
count reaches zero, and returns true.  The hypotheses are the pool's
invariants: page-table values are in range of the frame array, and a
frame about to reach pin count zero is tracked by the replacer. -/
theorem bpm_unpin_page_spec (s : BufferPoolManager) (pid : Int) (d : Bool)
    (hfr : ∀ f, s.page_table.lookup pid = some f → f < s.pages.length)
    (hnode : ∀ f, s.page_table.lookup pid = some f →
      (s.pages.getD f default).pin_count = 1 →
      (∃ n, s.replacer.nodeAt f = some n) ∧ f < s.replacer.replacer_size) :
    (s.page_table.lookup pid = none → s.unpinPage pid d = .ok (false, s)) ∧
    (∀ f, s.page_table.lookup pid = some f →
      (s.pages.getD f default).pin_count = 0 →
      s.unpinPage pid d = .ok (false, s)) ∧
    (∀ f, s.page_table.lookup pid = some f →
      0 < (s.pages.getD f default).pin_count →
      ∃ s', s.unpinPage pid d = .ok (true, s') ∧
        (s'.pages.getD f default).pin_count =
          (s.pages.getD f default).pin_count - 1 ∧
        (s'.pages.getD f default).is_dirty =
          ((s.pages.getD f default).is_dirty || d) ∧
        ((s.pages.getD f default).pin_count = 1 →
          ∃ n, s'.replacer.nodeAt f = some n ∧ n.is_evictable = true) ∧
        (1 < (s.pages.getD f default).pin_count → s'.replacer = s.replacer)) := by
  refine ⟨?_, ?_, ?_⟩
  · intro hl
    unfold BufferPoolManager.unpinPage
    rw [hl]
  · intro f hl hpin
    unfold BufferPoolManager.unpinPage
    simp only [hl]
    rw [if_pos hpin]
  · intro f hl hpin
    have hflt := hfr f hl
    by_cases h1 : (s.pages.getD f default).pin_count - 1 = 0
    · obtain ⟨⟨n, hn⟩, hfsz⟩ := hnode f hl (by omega)
      obtain ⟨r, hset⟩ := setEvictable_ok_of_node true hfsz hn
      obtain ⟨n', hn', hev'⟩ :=
        setEvictable_true_result (getN_some_lt hn) hset
      unfold BufferPoolManager.unpinPage
      simp only [hl]
      rw [if_neg (by omega), if_pos h1]
      simp only [hset]
      refine ⟨_, rfl, ?_, ?_, ?_, ?_⟩
      · rw [getd_set_self _ _ hflt]
      · rw [getd_set_self _ _ hflt]
      · intro _
        exact ⟨n', hn', hev'⟩
      · intro hcon
        exact absurd hcon (by omega)
    · unfold BufferPoolManager.unpinPage
      simp only [hl]
      rw [if_neg (by omega), if_neg h1]
      refine ⟨_, rfl, ?_, ?_, ?_, ?_⟩
      · rw [getd_set_self _ _ hflt]
      · rw [getd_set_self _ _ hflt]
      · intro hcon
        exact absurd h1 (by omega)
      · intro _
        rfl

theorem bpm_unpin_page_spec_witness :
    examplePool.unpinPage 7 false = .ok (false, examplePool) :=
  (bpm_unpin_page_spec examplePool 7 false
    (by
      intro f hf
      have h2 : some (0 : Nat) = some f := Eq.trans (by rfl) hf
      injection h2 with h3
      subst h3
      decide)
    (by
      intro f hf hpin
      have h2 : some (0 : Nat) = some f := Eq.trans (by rfl) hf
      injection h2 with h3
      subst h3
      exact absurd hpin (by decide))).2.1 0 (by rfl) (by rfl)

theorem newPage_some_fields {s s1 : BufferPoolManager} {f : Nat}
    {r1 r2 : LRUKReplacer}
    (hff : s.findFreeFrame = (some f, s1))
    (hrec : s1.replacer.recordAccess f = .ok r1)
    (hset : r1.setEvictable f false = .ok r2)
    (hflt : f < s1.pages.length) :
    ∃ s', s.newPage = .ok (some (s1.next_page_id, f), s') ∧
      s'.next_page_id = s1.next_page_id + 1 ∧
      (s'.pages.getD f default).pin_count =
        (s1.pages.getD f default).pin_count + 1 ∧
      (s'.pages.getD f default).is_dirty = false ∧
      (s'.pages.getD f default).page_id = s1.next_page_id ∧
      s'.page_table.lookup s1.next_page_id = some f := by
  refine ⟨_, newPage_some hff hrec hset, rfl, ?_, ?_, ?_, lookup_cons_self _ _ _⟩
  · rw [getd_set_self _ _ hflt]
  · rw [getd_set_self _ _ hflt]
  · rw [getd_set_self _ _ hflt]

/-- C4: NewPage either returns no page — exactly when the free list is
empty and the replacer yields no victim, i.e. no evictable frame exists —
or returns a freshly allocated page id taken from the monotonic
next_page_id counter, held in a frame with pin count exactly 1 and a
clear dirty flag, with the new page-to-frame mapping inserted into the
page table.  The hypotheses express the pool's invariants: the replacer
state is reachable and sized to the pool, and free-list or evictable
frames are unpinned. -/
theorem bpm_new_page_spec (s : BufferPoolManager)
    (hr : Reach s.replacer)
    (hsz : s.replacer.replacer_size = s.pool_size)
    (hlen : s.pages.length = s.pool_size)
    (hfree : ∀ f ∈ s.free_list, f < s.pool_size ∧
      (s.pages.getD f default).pin_count = 0)
    (hev : ∀ f n, s.replacer.nodeAt f = some n → n.is_evictable = true →
      (s.pages.getD f default).pin_count = 0) :
    ∃ r s', s.newPage = .ok (r, s') ∧
      ((r = none) ↔ (s.free_list = [] ∧ ∀ f, ¬ s.replacer.evictableAt f)) ∧
      (∀ pid f, r = some (pid, f) →
        pid = s.next_page_id ∧ s'.next_page_id = s.next_page_id + 1 ∧
        f < s.pool_size ∧
        (s'.pages.getD f default).pin_count = 1 ∧
        (s'.pages.getD f default).is_dirty = false ∧
        (s'.pages.getD f default).page_id = pid ∧
        s'.page_table.lookup pid = some f) := by
  have hw := reach_wf hr
  cases hfl : s.free_list with
  | cons f0 rest =>
    have hff := @findFreeFrame_free s _ _ hfl
    obtain ⟨hf0lt, hf0pin⟩ := hfree f0 (by rw [hfl]; exact List.mem_cons_self _ _)
    obtain ⟨r1, hrec, ⟨n1, hn1⟩, hsz1⟩ :=
      @recordAccess_ok s.replacer f0 (by omega) (by rw [hw.store_len]; omega)
    obtain ⟨r2, hset⟩ := setEvictable_ok_of_node false (by rw [hsz1]; omega) hn1
    obtain ⟨s', hNP, hnext, hpin', hdirty', hpageid', hlook'⟩ :=
      newPage_some_fields hff (by exact hrec) hset (by exact (by omega : f0 < s.pages.length))
    refine ⟨_, _, hNP, ?_, ?_⟩
    · constructor
      · intro hcon; exact Option.noConfusion hcon
      · rintro ⟨hfl', -⟩
        exact absurd hfl' (List.cons_ne_nil f0 rest)
    · intro pid fr hsome
      have hsome2 : some (s.next_page_id, f0) = some (pid, fr) := hsome
      injection hsome2 with hpair
      injection hpair with hpid hfr
      subst hpid
      subst hfr
      refine ⟨rfl, hnext, hf0lt, ?_, hdirty', hpageid', hlook'⟩
      have hpin0 : (({ s with free_list := rest } :
          BufferPoolManager).pages.getD f0 default).pin_count = 0 := hf0pin
      rw [hpin', hpin0]
  | nil =>
    cases hres : (s.replacer.evict).1 with
    | none =>
      have hff := findFreeFrame_none hfl hres
      have hNP := newPage_none hff
      refine ⟨_, _, hNP, ?_, ?_⟩
      · constructor
        · intro _
          refine ⟨rfl, ?_⟩
          rintro f ⟨n, hn, hnev⟩
          have hfalse := evict_none_no_evictable hw hres f n hn
          rw [hnev] at hfalse
          exact Bool.noConfusion hfalse
        · intro _; rfl
      · intro pid fr hcon
        exact Option.noConfusion hcon
    | some v =>
      obtain ⟨nv, hnv, hnvev⟩ := evict_some_evictable hw hres
      have hvlt : v < s.pool_size := by
        have h1 := getN_some_lt hnv
        rw [hw.store_len] at h1
        omega
      have hvpin := hev v nv hnv hnvev
      have hw2 := wf_evict hw
      have hsz2 : (s.replacer.evict).2.replacer_size = s.replacer.replacer_size :=
        (evict_fields s.replacer).1
      obtain ⟨r1, hrec, ⟨n1, hn1⟩, hsz1⟩ :=
        @recordAccess_ok (s.replacer.evict).2 v
          (by rw [hsz2]; omega) (by rw [hw2.store_len, hsz2]; omega)
      obtain ⟨r2, hset⟩ := setEvictable_ok_of_node false
        (by rw [hsz1, hsz2]; omega) hn1
      cases hd : (s.pages.getD v default).is_dirty with
      | false =>
        have hff := findFreeFrame_victim_clean hfl hres hd
        obtain ⟨s', hNP, hnext, hpin', hdirty', hpageid', hlook'⟩ :=
          newPage_some_fields hff (by exact hrec) hset
            (by exact (by omega : v < s.pages.length))
        refine ⟨_, _, hNP, ?_, ?_⟩
        · constructor
          · intro hcon; exact Option.noConfusion hcon
          · rintro ⟨-, hnoev⟩
            exact absurd ⟨nv, hnv, hnvev⟩ (hnoev v)
        · intro pid fr hsome
          have hsome2 : some (s.next_page_id, v) = some (pid, fr) := hsome
          injection hsome2 with hpair
          injection hpair with hpid hfr
          subst hpid
          subst hfr
          refine ⟨rfl, hnext, hvlt, ?_, hdirty', hpageid', hlook'⟩
          rw [hpin']
          have hpin0 : ((s.pages.getD v default)).pin_count = 0 := hvpin
          show (s.pages.getD v default).pin_count + 1 = 1
          omega
      | true =>
        have hff := findFreeFrame_victim_dirty hfl hres hd
        obtain ⟨s', hNP, hnext, hpin', hdirty', hpageid', hlook'⟩ :=
          newPage_some_fields hff (by exact hrec) hset
            (by
              show v < (s.pages.set v
                { s.pages.getD v default with is_dirty := false }).length
              rw [List.length_set]
              omega)
        refine ⟨_, _, hNP, ?_, ?_⟩
        · constructor
          · intro hcon; exact Option.noConfusion hcon
          · rintro ⟨-, hnoev⟩
            exact absurd ⟨nv, hnv, hnvev⟩ (hnoev v)
        · intro pid fr hsome
          have hsome2 : some (s.next_page_id, v) = some (pid, fr) := hsome
          injection hsome2 with hpair
          injection hpair with hpid hfr
          subst hpid
          subst hfr
          refine ⟨rfl, hnext, hvlt, ?_, hdirty', hpageid', hlook'⟩
          rw [hpin']
          have hpin1 : (((s.pages.set v
              { s.pages.getD v default with is_dirty := false }) :
              List Page).getD v default).pin_count =
              (s.pages.getD v default).pin_count := by
            rw [getd_set_self _ _ (by omega : v < s.pages.length)]
          show ((s.pages.set v
            { s.pages.getD v default with is_dirty := false }).getD v
              default).pin_count + 1 = 1
          omega

theorem bpm_new_page_spec_witness :
    ∃ r s', (BufferPoolManager.init 1 1).newPage = .ok (r, s') ∧
      ((r = none) ↔ ((BufferPoolManager.init 1 1).free_list = [] ∧
        ∀ f, ¬ (BufferPoolManager.init 1 1).replacer.evictableAt f)) ∧
      (∀ pid f, r = some (pid, f) →
        pid = (BufferPoolManager.init 1 1).next_page_id ∧
        s'.next_page_id = (BufferPoolManager.init 1 1).next_page_id + 1 ∧
        f < (BufferPoolManager.init 1 1).pool_size ∧
        (s'.pages.getD f default).pin_count = 1 ∧
        (s'.pages.getD f default).is_dirty = false ∧
        (s'.pages.getD f default).page_id = pid ∧
        s'.page_table.lookup pid = some f) :=
  bpm_new_page_spec (BufferPoolManager.init 1 1)
    (Reach.init 1 1 (Nat.le_refl 1)) rfl rfl
    (by
      intro f hf
      have h2 : f ∈ [0] := hf
      rw [List.mem_singleton] at h2
      subst h2
      exact ⟨Nat.zero_lt_one, rfl⟩)
    (by
      intro f n hn
      have h2 : getN (List.replicate 1 none) f = some n := hn
      rw [getN_replicate] at h2
      exact absurd h2 (by simp))

/-- A request as submitted to the disk scheduler: the is_write_ flag and
page_id_ of DiskRequest.  ShardHash receives the page id as a size_t, so
the page id is modelled as a natural number. -/
structure SchedReq where
  is_write : Bool
  page_id : Nat
deriving DecidableEq

/-- Member function DiskScheduler::ShardHash (disk_scheduler.cpp lines
67-70).  The constant NUM_WORKERS is declared in disk_scheduler.h, which
is not under src/; it is modelled from the spec (section 6: a positive
shard count) as a parameter. -/
def shardHash (numWorkers page_id : Nat) : Nat := page_id % numWorkers

/-- One iteration of the dispatcher loop of
DiskScheduler::StartWorkerThread (disk_scheduler.cpp lines 55-65): append
the request to the FIFO of the worker shard selected by ShardHash. -/
def dispatchStep (numWorkers : Nat) (shards : Nat → List SchedReq)
    (r : SchedReq) : Nat → List SchedReq :=
  fun w => if w = shardHash numWorkers r.page_id then shards w ++ [r]
           else shards w

/-- The dispatcher thread consumes the ingress FIFO in submission order
(the ingress Channel is a FIFO; spec section 4.3 — the Channel class is
not under src/) and routes each request in turn. -/
def runDispatcher (numWorkers : Nat) : List SchedReq →
    (Nat → List SchedReq) → Nat → List SchedReq
  | [], shards => shards
  | r :: rs, shards =>
    runDispatcher numWorkers rs (dispatchStep numWorkers shards r)

/-- Contents of worker shard w's FIFO after the dispatcher has routed the
whole submission sequence, starting from empty shard queues.  Each worker
thread (WorkerShard::StartWorkerThread, disk_scheduler.cpp lines 72-91)
consumes its own FIFO in order, invoking the disk manager once per
request before fulfilling its promise, so this list is also the order in
which the disk manager observes shard w's operations. -/
def shardQueue (numWorkers : Nat) (reqs : List SchedReq) (w : Nat) :
    List SchedReq :=
  runDispatcher numWorkers reqs (fun _ => []) w

theorem runDispatcher_eq {numWorkers : Nat} :
    ∀ (reqs : List SchedReq) (shards : Nat → List SchedReq) (w : Nat),
    runDispatcher numWorkers reqs shards w =
      shards w ++ reqs.filter (fun r => shardHash numWorkers r.page_id == w) := by
  intro reqs
  induction reqs with
  | nil => intro shards w; simp [runDispatcher]
  | cons r rs ih =>
    intro shards w
    show runDispatcher numWorkers rs (dispatchStep numWorkers shards r) w = _
    rw [ih]
    unfold dispatchStep
    by_cases hw : w = shardHash numWorkers r.page_id
    · rw [if_pos hw]
      rw [List.filter_cons_of_pos (by simp [hw])]
      simp
    · rw [if_neg hw]
      rw [List.filter_cons_of_neg (by simp; exact fun hh => hw hh.symm)]

/-- C8: with a positive worker count, every scheduled request is routed
to the worker shard page_id mod NUM_WORKERS (an in-range shard index), so
any two requests bearing the same page id reach the same shard; each
shard's FIFO holds exactly the subsequence of submitted requests hashed
to it, in submission order; and therefore the disk manager observes the
operations on any fixed page in submission order, while requests on
different pages may be routed to different shards. -/
theorem disk_scheduler_per_page_order (numWorkers : Nat)
    (hN : 0 < numWorkers) (reqs : List SchedReq) (p : Nat) :
    shardHash numWorkers p < numWorkers ∧
    (∀ r ∈ reqs, r.page_id = p →
      shardHash numWorkers r.page_id = shardHash numWorkers p) ∧
    (∀ w, shardQueue numWorkers reqs w =
      reqs.filter (fun r => shardHash numWorkers r.page_id == w)) ∧
    (shardQueue numWorkers reqs (shardHash numWorkers p)).filter
        (fun r => r.page_id == p) =
      reqs.filter (fun r => r.page_id == p) := by
  refine ⟨Nat.mod_lt _ hN, ?_, ?_, ?_⟩
  · intro r _ hr; rw [hr]
  · intro w
    unfold shardQueue
    rw [runDispatcher_eq]
    simp
  · unfold shardQueue
    rw [runDispatcher_eq]
    simp only [List.nil_append]
    rw [List.filter_filter]
    apply List.filter_congr
    intro r _
    by_cases hrp : r.page_id = p
    · simp [hrp]
    · simp [hrp]

theorem disk_scheduler_per_page_order_witness :
    shardHash 4 2 < 4 ∧
    (∀ r ∈ ([⟨true, 2⟩, ⟨false, 5⟩, ⟨false, 2⟩] : List SchedReq),
      r.page_id = 2 → shardHash 4 r.page_id = shardHash 4 2) ∧
    (∀ w, shardQueue 4 [⟨true, 2⟩, ⟨false, 5⟩, ⟨false, 2⟩] w =
      ([⟨true, 2⟩, ⟨false, 5⟩, ⟨false, 2⟩] : List SchedReq).filter
        (fun r => shardHash 4 r.page_id == w)) ∧
    (shardQueue 4 [⟨true, 2⟩, ⟨false, 5⟩, ⟨false, 2⟩] (shardHash 4 2)).filter
        (fun r => r.page_id == 2) =
      ([⟨true, 2⟩, ⟨false, 5⟩, ⟨false, 2⟩] : List SchedReq).filter
        (fun r => r.page_id == 2) :=
  disk_scheduler_per_page_order 4 (by decide) _ 2

end BusTub
